import Mathlib

/-! Withdrawal scripts of `src/script/script.cpp`.

A shallow embedding of the script classification predicates, the withdrawal
template matchers, the chunked push codec and the withdrawal data extractors
of `script.cpp`, followed by theorems about them.

A script is the list of its bytes.  A cursor (`const_iterator pc`) is the list
of the bytes that remain to be read, so `pc < end()` is `pc ≠ []`.
A function that can abort (a failed `assert`, an exception that escapes)
returns an `Option`, `none` being the abort.
-/

namespace CScript

/-- A script: the ordered sequence of its bytes. -/
abbrev Script := List UInt8

/-- A stack of pushes, bottom first: `pushes.back()` is the last element. -/
abbrev Pushes := List (List UInt8)

/-! ## Opcodes (`enum opcodetype`) -/

/-- Modelled from the spec: the `opcodetype` enumeration of `script.h` is not
among the sources; the values are those of the script wire format. -/
abbrev OP_0 : Nat := 0x00
/-- Modelled from the spec: value of the `opcodetype` enumeration of `script.h`. -/
abbrev OP_PUSHDATA1 : Nat := 0x4c
/-- Modelled from the spec: value of the `opcodetype` enumeration of `script.h`. -/
abbrev OP_PUSHDATA2 : Nat := 0x4d
/-- Modelled from the spec: value of the `opcodetype` enumeration of `script.h`. -/
abbrev OP_PUSHDATA4 : Nat := 0x4e
/-- Modelled from the spec: value of the `opcodetype` enumeration of `script.h`. -/
abbrev OP_1NEGATE : Nat := 0x4f
/-- Modelled from the spec: value of the `opcodetype` enumeration of `script.h`. -/
abbrev OP_RESERVED : Nat := 0x50
/-- Modelled from the spec: value of the `opcodetype` enumeration of `script.h`. -/
abbrev OP_1 : Nat := 0x51
/-- Modelled from the spec: value of the `opcodetype` enumeration of `script.h`. -/
abbrev OP_16 : Nat := 0x60
/-- Modelled from the spec: value of the `opcodetype` enumeration of `script.h`. -/
abbrev OP_IF : Nat := 0x63
/-- Modelled from the spec: value of the `opcodetype` enumeration of `script.h`. -/
abbrev OP_ELSE : Nat := 0x67
/-- Modelled from the spec: value of the `opcodetype` enumeration of `script.h`. -/
abbrev OP_ENDIF : Nat := 0x68
/-- Modelled from the spec: value of the `opcodetype` enumeration of `script.h`. -/
abbrev OP_DROP : Nat := 0x75
/-- Modelled from the spec: value of the `opcodetype` enumeration of `script.h`. -/
abbrev OP_EQUAL : Nat := 0x87
/-- Modelled from the spec: value of the `opcodetype` enumeration of `script.h`. -/
abbrev OP_LESSTHANOREQUAL : Nat := 0xa1
/-- Modelled from the spec: value of the `opcodetype` enumeration of `script.h`. -/
abbrev OP_HASH160 : Nat := 0xa9
/-- Modelled from the spec: value of the `opcodetype` enumeration of `script.h`
(the alias of `OP_NOP3`). -/
abbrev OP_CHECKSEQUENCEVERIFY : Nat := 0xb2
/-- Modelled from the spec: value of the `opcodetype` enumeration of `script.h`. -/
abbrev OP_WITHDRAWPROOFVERIFY : Nat := 0xb3
/-- Modelled from the spec: value of the `opcodetype` enumeration of `script.h`. -/
abbrev OP_REORGPROOFVERIFY : Nat := 0xb4

/-! ## The opcode decoder (`CScript::GetOp`) -/

/-- The operand of a push: the next `nSize` bytes, when the buffer holds them. -/
def readOperand (opcode nSize : Nat) (pc : Script) : Option (Nat × List UInt8 × Script) :=
  if pc.length < nSize then none else some (opcode, pc.take nSize, pc.drop nSize)

/-- Modelled from the spec: `CScript::GetOp` of `script.h` is not among the
sources.  It decodes one opcode and its inline operand and advances the
cursor; it fails when the buffer is exhausted, when a `PUSHDATA1/2/4` length
prefix cannot be read in full, or when the declared push length overruns the
buffer.  Opcodes up to `OP_PUSHDATA4` carry operand bytes (a direct length
below `OP_PUSHDATA1`, otherwise a little-endian length prefix of 1, 2 or 4
bytes); every other opcode carries none.  The result is the opcode, the operand
and the advanced cursor. -/
def GetOp (pc : Script) : Option (Nat × List UInt8 × Script) :=
  match pc with
  | [] => none
  | b :: pc =>
    let opcode := b.toNat
    if opcode ≤ OP_PUSHDATA4 then
      if opcode < OP_PUSHDATA1 then readOperand opcode opcode pc
      else if opcode = OP_PUSHDATA1 then
        match pc with
        | n0 :: pc => readOperand opcode n0.toNat pc
        | _ => none
      else if opcode = OP_PUSHDATA2 then
        match pc with
        | n0 :: n1 :: pc => readOperand opcode (n0.toNat + 256 * n1.toNat) pc
        | _ => none
      else
        match pc with
        | n0 :: n1 :: n2 :: n3 :: pc =>
          readOperand opcode
            (n0.toNat + 256 * n1.toNat + 65536 * n2.toNat + 16777216 * n3.toNat) pc
        | _ => none
    else some (opcode, [], pc)

/-! ## Script numbers (`CScriptNum`) -/

/-- Little-endian magnitude of a byte blob. -/
def leMagnitude : List UInt8 → Nat
  | [] => 0
  | b :: bs => b.toNat + 256 * leMagnitude bs

/-- Modelled from the spec: `CScriptNum::set_vch` of `script.h` is not among
the sources.  The value of a byte blob: little-endian magnitude with the top
bit of the last byte as the sign flag; the empty blob is zero. -/
def set_vch (vch : List UInt8) : Int :=
  match vch.getLast? with
  | none => 0
  | some top =>
    if 0x80 ≤ top.toNat then
      -((leMagnitude vch : Int) - 0x80 * 256 ^ (vch.length - 1))
    else (leMagnitude vch : Int)

/-- Modelled from the spec: the minimality test of the `CScriptNum`
constructor of `script.h`: the encoding has a redundant leading (most
significant) byte. -/
def nonMinimal (vch : List UInt8) : Bool :=
  match vch.getLast? with
  | none => false
  | some top =>
    top.toNat % 0x80 == 0 &&
      (vch.length ≤ 1 ||
        (match vch.dropLast.getLast? with
         | none => true
         | some b => b.toNat < 0x80))

/-- Modelled from the spec: the constructor
`CScriptNum(vch, fRequireMinimal, nMaxNumSize)` of `script.h`: `none` when it
throws (the blob is longer than `nMaxNumSize`, or minimality is required and
the encoding is not minimal), otherwise the decoded value. -/
def CScriptNum (vch : List UInt8) (fRequireMinimal : Bool) (nMaxNumSize : Nat) : Option Int :=
  if vch.length > nMaxNumSize then none
  else if fRequireMinimal && nonMinimal vch then none
  else some (set_vch vch)

/-- Modelled from the spec: `CScriptNum::getint`, the value clamped to the
range of a 32-bit `int`. -/
def getint (m_value : Int) : Int :=
  if m_value > 2147483647 then 2147483647
  else if m_value < -2147483648 then -2147483648
  else m_value

/-- Modelled from the spec: `CScriptNum::getint64`, the exact value. -/
def getint64 (m_value : Int) : Int := m_value

/-- The bytes of a magnitude, least significant first (at most `fuel` of them). -/
def serializeLoop : Nat → Nat → List UInt8
  | 0, _ => []
  | fuel + 1, absvalue =>
    if absvalue = 0 then []
    else UInt8.ofNat (absvalue % 256) :: serializeLoop fuel (absvalue / 256)

/-- Modelled from the spec: `CScriptNum::serialize` of `script.h`, the
canonical encoding of a 64-bit integer: the bytes of the magnitude, least
significant first, the sign flag in the top bit of the last byte, with one more
byte when that bit is taken by the magnitude; zero is the empty blob. -/
def serialize (value : Int) : List UInt8 :=
  if value = 0 then []
  else
    let result := serializeLoop 8 value.natAbs
    match result.getLast? with
    | none => []
    | some top =>
      if 0x80 ≤ top.toNat then result ++ [if value < 0 then 0x80 else 0x00]
      else if value < 0 then result.dropLast ++ [UInt8.ofNat (top.toNat + 0x80)]
      else result

/-! ## Script building (`operator<<`) -/

/-- Modelled from the spec: `CScript::operator<<(opcodetype)` of `script.h`,
the opcode append. -/
def push_opcode (this : Script) (opcode : Nat) : Script :=
  this ++ [UInt8.ofNat opcode]

/-- The opcode and length prefix with which a blob is pushed. -/
def pushPrefix (size : Nat) : List UInt8 :=
  if size < OP_PUSHDATA1 then [UInt8.ofNat size]
  else if size ≤ 0xff then [UInt8.ofNat OP_PUSHDATA1, UInt8.ofNat size]
  else if size ≤ 0xffff then
    [UInt8.ofNat OP_PUSHDATA2, UInt8.ofNat (size % 256), UInt8.ofNat (size / 256 % 256)]
  else
    [UInt8.ofNat OP_PUSHDATA4, UInt8.ofNat (size % 256), UInt8.ofNat (size / 256 % 256),
      UInt8.ofNat (size / 65536 % 256), UInt8.ofNat (size / 16777216 % 256)]

/-- Modelled from the spec: `CScript::operator<<(const std::vector<unsigned char>&)`
of `script.h`, the data-push append: a direct length opcode for fewer than
`OP_PUSHDATA1` bytes, otherwise the shortest of `OP_PUSHDATA1/2/4` with its
little-endian length prefix, then the bytes. -/
def push_data (this : Script) (b : List UInt8) : Script :=
  this ++ pushPrefix b.length ++ b

/-- Modelled from the spec: `CScript::operator<<(int64_t)` of `script.h`: the
small integers -1 and 1..16 are appended as their opcode, every other integer
as a push of its canonical encoding. -/
def push_int64 (this : Script) (n : Int) : Script :=
  if n = -1 ∨ (1 ≤ n ∧ n ≤ 16) then push_opcode this (n + ((OP_1 : Int) - 1)).toNat
  else push_data this (serialize n)

/-! ## The chunked push codec -/

/-- The loop of `CScript::PushWithdraw`: `it` is the part of `push` not yet
written.  The fuel bounds the number of iterations. -/
def PushWithdrawLoop : Nat → List UInt8 → Script → Int → Script × Int
  | 0, _, this, pushCount => (this, pushCount)
  | fuel + 1, it, this, pushCount =>
    if it.length = 0 then (this, pushCount)
    else if it.length < 520 then
      PushWithdrawLoop fuel [] (push_data this it) (pushCount + 1)
    else
      PushWithdrawLoop fuel (it.drop 520) (push_data this (it.take 520)) (pushCount + 1)

/-- `CScript::PushWithdraw`: appends `push` in chunks of 520 bytes, then the
number of chunks.  Every iteration consumes at least one byte, so
`push.length` iterations are enough; `pushCount` is an `int64_t` and the
number of chunks of a vector is below `2^63`. -/
def PushWithdraw (this : Script) (push : List UInt8) : Script :=
  let r := PushWithdrawLoop push.length push this 0
  push_int64 r.1 r.2

/-- The first loop of `PopWithdrawPush`, `for (int i = pushCount; i > 0; i--)`:
the flag is false when the loop returns false; the read buffer is as the loop
leaves it. -/
def PopWithdrawPushLoop (pushes : Pushes) :
    Nat → Option (List UInt8) → Bool × Option (List UInt8)
  | 0, read => (true, read)
  | i + 1, read =>
    let push := pushes.getD (pushes.length - (i + 1)) []
    if i + 1 ≠ 1 ∧ push.length ≠ 520 then (false, read)
    else PopWithdrawPushLoop pushes i (read.map (fun r => r ++ push))

/-- `PopWithdrawPush(pushes, read)`: the outer `none` is the exception of the
`CScriptNum` constructor; otherwise the returned flag, the stack and the read
buffer (`none` for a `NULL` pointer) as the call leaves them. -/
def PopWithdrawPush (pushes : Pushes) (read : Option (List UInt8)) :
    Option (Bool × Pushes × Option (List UInt8)) :=
  match pushes.getLast? with
  | none => some (false, pushes, read)
  | some back =>
    match CScriptNum back false 4 with
    | none => none
    | some num =>
      let pushCount := getint num
      let pushes := pushes.dropLast
      if pushCount < 0 ∨ pushCount > 2000 ∨ pushes.length < pushCount.toNat then
        some (false, pushes, read)
      else
        match PopWithdrawPushLoop pushes pushCount.toNat read with
        | (false, read) => some (false, pushes, read)
        | (true, read) => some (true, pushes.take (pushes.length - pushCount.toNat), read)

/-- The loop of `CScript::GetWithdrawSpent` that turns the script into a stack
of pushes: one entry per decoded opcode, `OP_1..OP_16` and `OP_1NEGATE`
synthesized as one byte.  `none` when `assert(GetOp(...))` fails (or the fuel
runs out). -/
def stackizeLoop : Nat → Script → Pushes → Option Pushes
  | fuel, pc, pushes =>
    if pc.length = 0 then some pushes
    else
      match fuel with
      | 0 => none
      | fuel + 1 =>
        match GetOp pc with
        | none => none
        | some (opcode, data, pc) =>
          let back :=
            if opcode ≤ OP_16 ∧ opcode ≥ OP_1 then data ++ [UInt8.ofNat (opcode - OP_1 + 1)]
            else if opcode = OP_1NEGATE then data ++ [0x81]
            else data
          stackizeLoop fuel pc (pushes ++ [back])

/-- The stack of pushes of a script, as `GetWithdrawSpent` builds it.  Every
decoded opcode consumes at least one byte, so `s.length` iterations are
enough. -/
def stackize (s : Script) : Option Pushes := stackizeLoop s.length s []

/-! ## Classification and template matchers -/

/-- The loop of `CScript::IsPushOnly`. -/
def IsPushOnlyLoop : Nat → Script → Bool
  | fuel, pc =>
    if pc.length = 0 then true
    else
      match fuel with
      | 0 => false
      | fuel + 1 =>
        match GetOp pc with
        | none => false
        | some (opcode, _, pc) =>
          if opcode > OP_16 then false
          else IsPushOnlyLoop fuel pc

/-- `CScript::IsPushOnly`.  Every decoded opcode consumes at least one byte,
so `s.length` iterations are enough. -/
def IsPushOnly (s : Script) : Bool := IsPushOnlyLoop s.length s

/-- The loop of `CScript::IsWithdrawProof`; `push_count` is a `uint32_t`. -/
def IsWithdrawProofLoop : Nat → Script → Nat → Bool
  | fuel, pc, push_count =>
    if pc.length = 0 then decide (push_count ≥ 10)
    else
      match fuel with
      | 0 => false
      | fuel + 1 =>
        match GetOp pc with
        | none => false
        | some (opcode, _, pc) =>
          if opcode > OP_16 ∨ opcode = OP_RESERVED then false
          else IsWithdrawProofLoop fuel pc ((push_count + 1) % 2 ^ 32)

/-- `CScript::IsWithdrawProof`.  Every decoded opcode consumes at least one
byte, so `s.length` iterations are enough. -/
def IsWithdrawProof (s : Script) : Bool := IsWithdrawProofLoop s.length s 0

/-- One step of a template matcher,
`if (!GetOp(pc, opcode, data) || bad) return false;`: the advanced cursor when
the step passes. -/
def matchStep (bad : Nat → List UInt8 → Bool) (pc : Script) : Option Script :=
  match GetOp pc with
  | none => none
  | some (opcode, data, pc) => if bad opcode data then none else some pc

/-- A sequence of matcher steps, in order, each from where the previous one
stopped. -/
def matchSteps : List (Nat → List UInt8 → Bool) → Script → Option Script
  | [], pc => some pc
  | bad :: rest, pc =>
    match matchStep bad pc with
    | none => none
    | some pc => matchSteps rest pc

/-- The sixteen steps of `CScript::IsWithdrawOutput`, each by the condition
on which it returns false (`FEDERATED_PEG_SIDECHAIN_ONLY` is defined, so the
step under `#ifndef` is absent). -/
def withdrawOutputSteps : List (Nat → List UInt8 → Bool) :=
  [ fun opcode _ => opcode != OP_IF,
    fun opcode _ => opcode == OP_RESERVED || decide (opcode > OP_16),
    fun _ data => data.length != 32,
    fun opcode _ => opcode == OP_RESERVED || decide (opcode > OP_16),
    fun opcode data => opcode == OP_RESERVED || decide (opcode > OP_16) || decide (data.length > 8),
    fun _ data => data.length != 20,
    fun _ data => data.length != 32,
    fun opcode _ => opcode != OP_REORGPROOFVERIFY,
    fun opcode _ => opcode != OP_ELSE,
    fun opcode _ => opcode == OP_RESERVED || decide (opcode > OP_16),
    fun opcode _ => opcode != OP_CHECKSEQUENCEVERIFY,
    fun opcode _ => opcode != OP_DROP,
    fun opcode _ => opcode != OP_HASH160,
    fun _ data => data.length != 20,
    fun opcode _ => opcode != OP_EQUAL,
    fun opcode _ => opcode != OP_ENDIF ]

/-- `CScript::IsWithdrawOutput`: the steps in order, then
`if (GetOp(pc, opcode, data)) return false; return true;`. -/
def IsWithdrawOutput (s : Script) : Bool :=
  match matchSteps withdrawOutputSteps s with
  | none => false
  | some pc => (GetOp pc).isNone

/-- `CScript::GetFraudBounty`; `none` when an assertion fails or the
`CScriptNum` constructor throws. -/
def GetFraudBounty (s : Script) : Option Int :=
  if !IsWithdrawOutput s then none
  else
    match GetOp s with
    | none => none
    | some (_, _, pc) =>
    match GetOp pc with
    | none => none
    | some (_, _, pc) =>
    match GetOp pc with
    | none => none
    | some (_, _, pc) =>
    match GetOp pc with
    | none => none
    | some (_, _, pc) =>
    match GetOp pc with
    | none => none
    | some (opcode, data, _) =>
      let data :=
        if opcode ≤ OP_16 ∧ opcode ≥ OP_1 then data ++ [UInt8.ofNat (opcode - OP_1 + 1)]
        else if opcode = OP_1NEGATE then data ++ [0x81]
        else data
      (CScriptNum data false 8).map getint64

/-- A 256-bit value (`uint256`): 32 bytes. -/
abbrev uint256 := { v : List UInt8 // v.length = 32 }

/-- Modelled from the spec: the constructor `uint256(const std::vector<unsigned char>&)`
of `uint256.h` (not among the sources): the 32 bytes of the vector, and zero
when the vector does not have 32 bytes. -/
def uint256.ofVector (vch : List UInt8) : uint256 :=
  if h : vch.length = 32 then ⟨vch, h⟩ else ⟨List.replicate 32 0, by simp⟩

/-- The script `CScript() << OP_DROP << CScriptNum(144) << OP_LESSTHANOREQUAL`
whose hash a lock to us must carry. -/
def expectedScript : Script :=
  push_opcode (push_data (push_opcode [] OP_DROP) (serialize 144)) OP_LESSTHANOREQUAL

/-- `CScript::IsWithdrawLock(hashGenesisBlock, fRequireDestination, fRequireToUs)`.
The hash function `CHash160` of `hash.h` is external: it is the parameter
`Hash160`, whose result has 20 bytes. -/
def IsWithdrawLock (Hash160 : List UInt8 → { v : List UInt8 // v.length = 20 })
    (hashGenesisBlock : uint256) (fRequireDestination fRequireToUs : Bool) (s : Script) : Bool :=
  match GetOp s with
  | none => false
  | some (opcode, data, pc) =>
    let afterTag : Option (Nat × List UInt8 × Script) :=
      if opcode = 24 ∧ data.length = 24 then
        if fRequireToUs && (data.getD 0 0 != 0x50 || data.getD 1 0 != 0x32 ||
            data.getD 2 0 != 0x53 || data.getD 3 0 != 0x48) then none
        else
          match GetOp pc with
          | none => none
          | some (opcode, data, pc) =>
            if opcode != OP_DROP || data.length != 0 then none
            else GetOp pc
      else if fRequireDestination then none
      else some (opcode, data, pc)
    match afterTag with
    | none => false
    | some (opcode, data, pc) =>
      if opcode != 32 || data.length != 32 then false
      else if fRequireToUs && decide (uint256.ofVector data ≠ hashGenesisBlock) then false
      else
        match GetOp pc with
        | none => false
        | some (_, data, pc) =>
          if data.length != 20 then false
          else if fRequireToUs && decide (data ≠ (Hash160 expectedScript).val) then false
          else
            match GetOp pc with
            | none => false
            | some (opcode, data, pc) =>
              if opcode != OP_WITHDRAWPROOFVERIFY || data.length != 0 then false
              else if fRequireToUs && (GetOp pc).isSome then false
              else true

/-- Modelled from the spec: what `GetWithdrawSpent` reads of a deserialized
`CTransaction` (`primitives/transaction.h` is not among the sources): the
number of its outputs and its parent-chain hash. -/
structure CTransaction where
  /-- The value of `vout.size()`. -/
  voutSize : Nat
  /-- The value of `GetBitcoinHash()`. -/
  bitcoinHash : uint256

/-- Modelled from the spec: `COutPoint` of `primitives/transaction.h` (not
among the sources), a transaction hash and a 32-bit output index. -/
structure COutPoint where
  /-- The referenced transaction. -/
  hash : uint256
  /-- The output index, a `uint32_t`. -/
  n : Nat
deriving DecidableEq

/-- Modelled from the spec: the null outpoint `COutPoint()`, the empty
sentinel: hash zero and index `(uint32_t) -1`. -/
def COutPoint.null : COutPoint := ⟨⟨List.replicate 32 0, by simp⟩, 4294967295⟩

/-- What follows a successful or failed `PopWithdrawPush` inside the `try`
block of `GetWithdrawSpent`: the stack and read buffer when it returned true. -/
def popOk (r : Option (Bool × Pushes × Option (List UInt8))) :
    Option (Pushes × Option (List UInt8)) :=
  match r with
  | some (true, pushes, read) => some (pushes, read)
  | _ => none

/-- `CScript::GetWithdrawSpent`; the outer `none` is a failed assertion.  The
transaction deserializer (`CDataStream(...) >> tx`) is external: it is the
parameter `deserialize`, `none` when it throws.  Every exception raised inside
the `try` block yields `COutPoint()`.  `FEDERATED_PEG_SIDECHAIN_ONLY` is
defined, so no SPV proof is popped. -/
def GetWithdrawSpent (deserialize : List UInt8 → Option CTransaction) (s : Script) :
    Option COutPoint :=
  if !IsWithdrawProof s then none
  else
    match stackize s with
    | none => none
    | some pushes =>
      match popOk (PopWithdrawPush pushes none) with
      | none => some COutPoint.null
      | some (pushes, _) =>
        match pushes.getLast? with
        | none => some COutPoint.null
        | some back =>
          match CScriptNum back false 4 with
          | none => some COutPoint.null
          | some num =>
            let ntxOut := getint num
            let pushes := pushes.dropLast
            match popOk (PopWithdrawPush pushes (some [])) with
            | none => some COutPoint.null
            | some (_, vTx) =>
              match deserialize (vTx.getD []) with
              | none => some COutPoint.null
              | some tx =>
                if ntxOut < 0 ∨ ntxOut.toNat % 2 ^ 32 ≥ tx.voutSize then some COutPoint.null
                else some ⟨tx.bitcoinHash, ntxOut.toNat % 2 ^ 32⟩

/-- The well-formed withdrawal output script
`OP_IF OP_1 <txid> OP_1 <amount> <hash> <genesis> OP_REORGPROOFVERIFY OP_ELSE
OP_1 OP_CHECKSEQUENCEVERIFY OP_DROP OP_HASH160 <dest> OP_EQUAL OP_ENDIF`,
built with the script-building operators. -/
def withdrawOutputTemplate (txid amount hash genesis dest : List UInt8) : Script :=
  push_opcode (push_opcode (push_data (push_opcode (push_opcode (push_opcode (push_opcode
    (push_opcode (push_opcode (push_data (push_data (push_data (push_opcode (push_data
    (push_opcode (push_opcode [] OP_IF) OP_1) txid) OP_1) amount) hash) genesis)
    OP_REORGPROOFVERIFY) OP_ELSE) OP_1) OP_CHECKSEQUENCEVERIFY) OP_DROP) OP_HASH160) dest)
    OP_EQUAL) OP_ENDIF

/-- The element of index `n` (from 0) in the decoding of a script: its opcode
and operand. -/
def nthOp : Nat → Script → Option (Nat × List UInt8)
  | 0, pc => (GetOp pc).map (fun r => (r.1, r.2.1))
  | n + 1, pc =>
    match GetOp pc with
    | none => none
    | some (_, _, pc) => nthOp n pc

/-- The integer that a decoded element stands for: `n` for `OP_n`, -1 for
`OP_1NEGATE`, 0 for `OP_0`, and for a raw push the little-endian
sign-magnitude value of its operand. -/
def elementValue (opcode : Nat) (data : List UInt8) : Int :=
  if OP_1 ≤ opcode ∧ opcode ≤ OP_16 then (opcode : Int) - 0x50
  else if opcode = OP_1NEGATE then -1
  else if opcode = OP_0 then 0
  else set_vch data

/-- The withdrawal lock script
`[<tag> OP_DROP] <genesis> <hash> OP_WITHDRAWPROOFVERIFY`, built with the
script-building operators; `tag` is the optional destination tag. -/
def withdrawLock (tag : Option (List UInt8)) (genesis hash : List UInt8) : Script :=
  push_opcode
    (push_data
      (push_data
        (match tag with
         | none => []
         | some t => push_opcode (push_data [] t) OP_DROP)
        genesis)
      hash)
    OP_WITHDRAWPROOFVERIFY

/-- The full decoding of a script, element by element (opcode and operand);
`none` when the decoder fails before the end of the buffer. -/
def decodeAllLoop : Nat → Script → Option (List (Nat × List UInt8))
  | fuel, pc =>
    if pc.length = 0 then some []
    else
      match fuel with
      | 0 => none
      | fuel + 1 =>
        match GetOp pc with
        | none => none
        | some (opcode, data, pc) => (decodeAllLoop fuel pc).map (fun l => (opcode, data) :: l)

/-- The decoded elements of a script.  Every element consumes at least one
byte, so `s.length` iterations are enough. -/
def decodeAll (s : Script) : Option (List (Nat × List UInt8)) := decodeAllLoop s.length s

/-- The consecutive chunks of a blob: 520 bytes each, the last one possibly
shorter, none empty (at most `fuel` of them). -/
def chunksOf : Nat → List UInt8 → Pushes
  | 0, _ => []
  | fuel + 1, it =>
    if it.length = 0 then []
    else if it.length < 520 then [it]
    else it.take 520 :: chunksOf fuel (it.drop 520)

/-- The opcode with which a blob of the given size is pushed. -/
def pushOpcodeOf (size : Nat) : Nat :=
  if size < OP_PUSHDATA1 then size
  else if size ≤ 0xff then OP_PUSHDATA1
  else if size ≤ 0xffff then OP_PUSHDATA2
  else OP_PUSHDATA4

/-- The stack entry that `GetWithdrawSpent` makes of a decoded element:
`OP_1..OP_16` and `OP_1NEGATE` are synthesized as one byte. -/
def stackEntry (e : Nat × List UInt8) : List UInt8 :=
  if e.1 ≤ OP_16 ∧ e.1 ≥ OP_1 then e.2 ++ [UInt8.ofNat (e.1 - OP_1 + 1)]
  else if e.1 = OP_1NEGATE then e.2 ++ [0x81]
  else e.2

/-- A group of chunks with its count entry that `PopWithdrawPush` accepts: the
count entry is a script number of at most 4 bytes whose value is the number of
chunks, at most 2000, and every chunk but the top-most has 520 bytes. -/
def validChunkGroup (chunks : Pushes) (count : List UInt8) : Prop :=
  count.length ≤ 4 ∧ set_vch count = (chunks.length : Int) ∧ chunks.length ≤ 2000 ∧
    ∀ d ∈ chunks.dropLast, d.length = 520

instance (chunks : Pushes) (count : List UInt8) : Decidable (validChunkGroup chunks count) := by
  unfold validChunkGroup
  infer_instance

/-! ## Signature operation counting and pay-to-script-hash -/

/-- Modelled from the spec: value of the `opcodetype` enumeration of `script.h`. -/
abbrev OP_CHECKSIG : Nat := 0xac
/-- Modelled from the spec: value of the `opcodetype` enumeration of `script.h`. -/
abbrev OP_CHECKSIGVERIFY : Nat := 0xad
/-- Modelled from the spec: value of the `opcodetype` enumeration of `script.h`. -/
abbrev OP_CHECKMULTISIG : Nat := 0xae
/-- Modelled from the spec: value of the `opcodetype` enumeration of `script.h`. -/
abbrev OP_CHECKMULTISIGVERIFY : Nat := 0xaf
/-- Modelled from the spec: value of the `opcodetype` enumeration of `script.h`. -/
abbrev OP_INVALIDOPCODE : Nat := 0xff

/-- Modelled from the spec: `CScript::DecodeOP_N` of `script.h` is not among
the sources: the small-integer value of a small-integer opcode, `n` for `OP_n`
(`OP_1..OP_16`) and 0 for `OP_0`.  `GetSigOpCount` calls it on `OP_1..OP_16`
only. -/
def DecodeOP_N (opcode : Nat) : Nat :=
  if opcode = OP_0 then 0 else opcode - (OP_1 - 1)

/-- The loop of `CScript::GetSigOpCount(bool fAccurate)`; `n` is an
`unsigned int`.  A failed `GetOp` breaks out of the loop. -/
def GetSigOpCountLoop (fAccurate : Bool) : Nat → Script → Nat → Nat → Nat
  | fuel, pc, n, lastOpcode =>
    if pc.length = 0 then n
    else
      match fuel with
      | 0 => n
      | fuel + 1 =>
        match GetOp pc with
        | none => n
        | some (opcode, _, pc) =>
          let n :=
            if opcode = OP_CHECKSIG ∨ opcode = OP_CHECKSIGVERIFY then (n + 1) % 2 ^ 32
            else if opcode = OP_CHECKMULTISIG ∨ opcode = OP_CHECKMULTISIGVERIFY then
              if fAccurate = true ∧ lastOpcode ≥ OP_1 ∧ lastOpcode ≤ OP_16 then
                (n + DecodeOP_N lastOpcode) % 2 ^ 32
              else (n + 20) % 2 ^ 32
            else n
          GetSigOpCountLoop fAccurate fuel pc n opcode

/-- `CScript::GetSigOpCount(bool fAccurate)`.  Every decoded opcode consumes
at least one byte, so `s.length` iterations are enough. -/
def GetSigOpCount (fAccurate : Bool) (s : Script) : Nat :=
  GetSigOpCountLoop fAccurate s.length s 0 OP_INVALIDOPCODE

/-- The checked element access `at(i)` of the script vector: `none` when it
throws `out_of_range`. -/
def at_ (s : Script) (i : Nat) : Option UInt8 := s.get? i

/-- `CScript::IsPayToScriptHash`; `none` when an `at` throws.  The operands of
`&&` are evaluated from left to right, each only when those before it hold. -/
def IsPayToScriptHash (s : Script) : Option Bool :=
  if s.length ≠ 23 then some false
  else
    match at_ s 0 with
    | none => none
    | some b0 =>
      if b0.toNat ≠ OP_HASH160 then some false
      else
        match at_ s 1 with
        | none => none
        | some b1 =>
          if b1.toNat ≠ 0x14 then some false
          else
            match at_ s 22 with
            | none => none
            | some b22 => some (decide (b22.toNat = OP_EQUAL))

/-- The loop of `CScript::GetSigOpCount(const CScript& scriptSig)`: `none`
when it returns 0 (a failed `GetOp` or an opcode above `OP_16`), otherwise the
operand that the last `GetOp` left in `data`. -/
def lastPushLoop : Nat → Script → List UInt8 → Option (List UInt8)
  | fuel, pc, data =>
    if pc.length = 0 then some data
    else
      match fuel with
      | 0 => none
      | fuel + 1 =>
        match GetOp pc with
        | none => none
        | some (opcode, data, pc) =>
          if opcode > OP_16 then none
          else lastPushLoop fuel pc data

/-- `CScript::GetSigOpCount(const CScript& scriptSig)` on the script `this`;
`none` when `IsPayToScriptHash` throws.  Every decoded opcode consumes at least
one byte, so `scriptSig.length` iterations are enough. -/
def GetSigOpCount_scriptSig (this scriptSig : Script) : Option Nat :=
  match IsPayToScriptHash this with
  | none => none
  | some false => some (GetSigOpCount true this)
  | some true =>
    match lastPushLoop scriptSig.length scriptSig [] with
    | none => some 0
    | some data => some (GetSigOpCount true data)

/-- The value `uint256(0)`. -/
def uint256.zero : uint256 := ⟨List.replicate 32 0, by simp⟩

/-- `CScript::GetWithdrawLockGenesisHash`; `none` when an assertion fails.
`IsWithdrawLock(0)` is the call with `fRequireDestination` and `fRequireToUs`
false (the default arguments of the declaration in `script.h`). -/
def GetWithdrawLockGenesisHash (Hash160 : List UInt8 → { v : List UInt8 // v.length = 20 })
    (s : Script) : Option uint256 :=
  if !IsWithdrawLock Hash160 uint256.zero false false s then none
  else
    match GetOp s with
    | none => none
    | some (_, vchgenesishash, pc) =>
      let afterDrop : Option (List UInt8) :=
        if vchgenesishash.length ≠ 32 then
          match GetOp pc with
          | none => none
          | some (opcode, _, pc) =>
            if opcode ≠ OP_DROP then none
            else
              match GetOp pc with
              | none => none
              | some (_, vchgenesishash, _) => some vchgenesishash
        else some vchgenesishash
      match afterDrop with
      | none => none
      | some vchgenesishash =>
        if vchgenesishash.length = 32 then some (uint256.ofVector vchgenesishash)
        else none

/-- The count that `GetSigOpCount` accumulates over a list of decoded
elements, from the count `n` and the previous opcode `lastOpcode`. -/
def countSigOps (fAccurate : Bool) : List (Nat × List UInt8) → Nat → Nat → Nat
  | [], n, _ => n
  | e :: ops, n, lastOpcode =>
    countSigOps fAccurate ops
      (if e.1 = OP_CHECKSIG ∨ e.1 = OP_CHECKSIGVERIFY then (n + 1) % 2 ^ 32
       else if e.1 = OP_CHECKMULTISIG ∨ e.1 = OP_CHECKMULTISIGVERIFY then
         if fAccurate = true ∧ lastOpcode ≥ OP_1 ∧ lastOpcode ≤ OP_16 then
           (n + DecodeOP_N lastOpcode) % 2 ^ 32
         else (n + 20) % 2 ^ 32
       else n)
      e.1

/-- The opcodes that `GetSigOpCount` counts. -/
def isSigOp (opcode : Nat) : Prop :=
  opcode = OP_CHECKSIG ∨ opcode = OP_CHECKSIGVERIFY ∨ opcode = OP_CHECKMULTISIG ∨
    opcode = OP_CHECKMULTISIGVERIFY

/-- The operand bytes of the last element decoded in a script; empty when the
script is empty, does not decode, or its last opcode carries no operand. -/
def lastOperand (s : Script) : List UInt8 :=
  match decodeAll s with
  | none => []
  | some ops =>
    match ops.getLast? with
    | none => []
    | some e => e.2

/-! ## Theorems -/

theorem toNat_ofNat_of_lt (n : Nat) (h : n < 256) : (UInt8.ofNat n).toNat = n := by
  show n % 256 = n
  omega

theorem toNat_lt (b : UInt8) : b.toNat < 256 := b.val.isLt

/-- An opcode above `OP_PUSHDATA4` decodes alone, with no operand. -/
theorem GetOp_opcode (b : UInt8) (rest : Script) (h : OP_PUSHDATA4 < b.toNat) :
    GetOp (b :: rest) = some (b.toNat, [], rest) := by
  simp only [GetOp]
  rw [if_neg (by omega)]

/-- A direct push: a length byte below `OP_PUSHDATA1` followed by that many bytes. -/
theorem GetOp_direct (b : UInt8) (d rest : Script) (h : b.toNat = d.length)
    (hlt : d.length < OP_PUSHDATA1) :
    GetOp (b :: (d ++ rest)) = some (d.length, d, rest) := by
  simp only [OP_PUSHDATA1] at hlt
  simp only [GetOp, readOperand, OP_PUSHDATA1, OP_PUSHDATA4]
  rw [if_pos (by omega), if_pos (by omega), if_neg (by simp [h])]
  simp [h]

theorem readOperand_append {opcode n : Nat} {pc : Script} {r : Nat × List UInt8 × Script}
    (h : readOperand opcode n pc = some r) (x : Script) :
    readOperand opcode n (pc ++ x) = some (r.1, r.2.1, r.2.2 ++ x) := by
  unfold readOperand at h ⊢
  split at h
  · cases h
  · rename_i hn
    have hn' : n ≤ pc.length := by omega
    cases h
    rw [if_neg (by simp; omega)]
    simp [List.take_append_of_le_length hn', List.drop_append_of_le_length hn']

/-- Decoding does not depend on what follows the decoded element. -/
theorem GetOp_append {pc : Script} {r : Nat × List UInt8 × Script}
    (h : GetOp pc = some r) (x : Script) :
    GetOp (pc ++ x) = some (r.1, r.2.1, r.2.2 ++ x) := by
  match pc, h with
  | b :: pc, h =>
    simp only [GetOp, List.cons_append] at h ⊢
    split_ifs at h ⊢ with h1 h2 h3 h4
    · exact readOperand_append h x
    · match pc, h with
      | n0 :: pc, h => exact readOperand_append h x
    · match pc, h with
      | n0 :: n1 :: pc, h => exact readOperand_append h x
    · match pc, h with
      | n0 :: n1 :: n2 :: n3 :: pc, h => exact readOperand_append h x
    · cases h; rfl

/-- Decoding consumes at least one byte. -/
theorem GetOp_length {pc : Script} {r : Nat × List UInt8 × Script}
    (h : GetOp pc = some r) : r.2.2.length < pc.length := by
  have key : ∀ {o n : Nat} {q : Script} {r : Nat × List UInt8 × Script},
      readOperand o n q = some r → r.2.2.length ≤ q.length := by
    intro o n q r h
    unfold readOperand at h
    split at h
    · cases h
    · cases h; simp
  match pc, h with
  | b :: pc, h =>
    simp only [GetOp] at h
    split_ifs at h with h1 h2 h3 h4
    · have := key h; simp; omega
    · match pc, h with
      | n0 :: pc, h => have := key h; simp; omega
    · match pc, h with
      | n0 :: n1 :: pc, h => have := key h; simp; omega
    · match pc, h with
      | n0 :: n1 :: n2 :: n3 :: pc, h => have := key h; simp; omega
    · cases h; simp
theorem matchStep_opcode (bad : Nat → List UInt8 → Bool) (b : UInt8) (rest : Script)
    (h : OP_PUSHDATA4 < b.toNat) (hb : bad b.toNat [] = false) :
    matchStep bad (b :: rest) = some rest := by
  simp [matchStep, GetOp_opcode b rest h, hb]

theorem matchStep_direct (bad : Nat → List UInt8 → Bool) (b : UInt8) (d rest : Script)
    (h : b.toNat = d.length) (hlt : d.length < OP_PUSHDATA1) (hb : bad d.length d = false) :
    matchStep bad (b :: (d ++ rest)) = some rest := by
  simp [matchStep, GetOp_direct b d rest h hlt, hb]

theorem withdrawOutputTemplate_bytes (txid amount hash genesis dest : List UInt8)
    (h1 : txid.length = 32) (h2 : amount.length = 4) (h3 : hash.length = 20)
    (h4 : genesis.length = 32) (h5 : dest.length = 20) :
    withdrawOutputTemplate txid amount hash genesis dest =
      0x63 :: 0x51 :: 0x20 :: (txid ++ 0x51 :: 0x04 :: (amount ++ 0x14 :: (hash ++ 0x20 ::
        (genesis ++ 0xb4 :: 0x67 :: 0x51 :: 0xb2 :: 0x75 :: 0xa9 :: 0x14 ::
          (dest ++ [0x87, 0x68]))))) := by
  have e : ∀ n : Nat, n < 76 → pushPrefix n = [UInt8.ofNat n] := by
    intro n hn; simp [pushPrefix, hn]
  simp only [withdrawOutputTemplate, push_opcode, push_data, h1, h2, h3, h4, h5,
    e 32 (by decide), e 4 (by decide), e 20 (by decide)]
  simp only [List.append_assoc, List.cons_append, List.nil_append]
  rfl

theorem matchSteps_template (txid amount hash genesis dest : List UInt8)
    (h1 : txid.length = 32) (h2 : amount.length = 4) (h3 : hash.length = 20)
    (h4 : genesis.length = 32) (h5 : dest.length = 20) :
    matchSteps withdrawOutputSteps (withdrawOutputTemplate txid amount hash genesis dest)
      = some [] := by
  rw [withdrawOutputTemplate_bytes _ _ _ _ _ h1 h2 h3 h4 h5]
  simp only [withdrawOutputSteps, matchSteps]
  rw [matchStep_opcode _ _ _ (by decide) (by decide)]
  simp only []
  rw [matchStep_opcode _ _ _ (by decide) (by decide)]
  simp only []
  rw [matchStep_direct _ _ _ _ (by rw [h1]; decide) (by rw [h1]; decide) (by simp [h1])]
  simp only []
  rw [matchStep_opcode _ _ _ (by decide) (by decide)]
  simp only []
  rw [matchStep_direct _ _ _ _ (by rw [h2]; decide) (by rw [h2]; decide)
    (by simp [h2, OP_16, OP_RESERVED])]
  simp only []
  rw [matchStep_direct _ _ _ _ (by rw [h3]; decide) (by rw [h3]; decide) (by simp [h3])]
  simp only []
  rw [matchStep_direct _ _ _ _ (by rw [h4]; decide) (by rw [h4]; decide) (by simp [h4])]
  simp only []
  rw [matchStep_opcode _ _ _ (by decide) (by decide)]
  simp only []
  rw [matchStep_opcode _ _ _ (by decide) (by decide)]
  simp only []
  rw [matchStep_opcode _ _ _ (by decide) (by decide)]
  simp only []
  rw [matchStep_opcode _ _ _ (by decide) (by decide)]
  simp only []
  rw [matchStep_opcode _ _ _ (by decide) (by decide)]
  simp only []
  rw [matchStep_opcode _ _ _ (by decide) (by decide)]
  simp only []
  rw [matchStep_direct _ _ _ _ (by rw [h5]; decide) (by rw [h5]; decide) (by simp [h5])]
  simp only []
  rw [show ([0x87, 0x68] : List UInt8) = 0x87 :: 0x68 :: [] from rfl]
  rw [matchStep_opcode _ _ _ (by decide) (by decide)]
  simp only []
  rw [matchStep_opcode _ _ _ (by decide) (by decide)]

theorem matchStep_append {bad : Nat → List UInt8 → Bool} {pc rest : Script}
    (h : matchStep bad pc = some rest) (x : Script) :
    matchStep bad (pc ++ x) = some (rest ++ x) := by
  unfold matchStep at h ⊢
  cases hg : GetOp pc with
  | none => rw [hg] at h; cases h
  | some r =>
    rw [hg] at h
    rw [GetOp_append hg x]
    obtain ⟨o, d, q⟩ := r
    simp only at h ⊢
    split_ifs at h ⊢ with hb
    cases h; rfl

theorem matchSteps_append (steps : List (Nat → List UInt8 → Bool)) {pc rest : Script}
    (h : matchSteps steps pc = some rest) (x : Script) :
    matchSteps steps (pc ++ x) = some (rest ++ x) := by
  induction steps generalizing pc with
  | nil => simp only [matchSteps] at h ⊢; cases h; rfl
  | cons bad steps ih =>
    simp only [matchSteps] at h ⊢
    cases hs : matchStep bad pc with
    | none => rw [hs] at h; cases h
    | some q =>
      rw [hs] at h
      rw [matchStep_append hs x]
      exact ih h

theorem IsWithdrawOutput_of_template (txid amount hash genesis dest : List UInt8)
    (h1 : txid.length = 32) (h2 : amount.length = 4) (h3 : hash.length = 20)
    (h4 : genesis.length = 32) (h5 : dest.length = 20) :
    IsWithdrawOutput (withdrawOutputTemplate txid amount hash genesis dest) = true := by
  unfold IsWithdrawOutput
  rw [matchSteps_template _ _ _ _ _ h1 h2 h3 h4 h5]
  rfl

/-- C5: for every 32-byte tx id, 4-byte amount, 20-byte hash, 32-byte genesis
hash and 20-byte destination hash, the well-formed withdrawal output script
built from them satisfies `IsWithdrawOutput`. -/
theorem IsWithdrawOutput_template (txid amount hash genesis dest : List UInt8)
    (h1 : txid.length = 32) (h2 : amount.length = 4) (h3 : hash.length = 20)
    (h4 : genesis.length = 32) (h5 : dest.length = 20) :
    IsWithdrawOutput (withdrawOutputTemplate txid amount hash genesis dest) = true :=
  IsWithdrawOutput_of_template txid amount hash genesis dest h1 h2 h3 h4 h5

theorem IsWithdrawOutput_template_witness :
    IsWithdrawOutput (withdrawOutputTemplate (List.replicate 32 1) [1, 2, 3, 4]
      (List.replicate 20 2) (List.replicate 32 3) (List.replicate 20 4)) = true :=
  IsWithdrawOutput_template _ _ _ _ _ (by decide) (by decide) (by decide) (by decide)
    (by decide)

/-- C6: every proper prefix of a well-formed withdrawal output script (the
script without its final `OP_ENDIF` among them) is rejected by
`IsWithdrawOutput`. -/
theorem IsWithdrawOutput_truncated (txid amount hash genesis dest : List UInt8)
    (h1 : txid.length = 32) (h2 : amount.length = 4) (h3 : hash.length = 20)
    (h4 : genesis.length = 32) (h5 : dest.length = 20) :
    IsWithdrawOutput (withdrawOutputTemplate txid amount hash genesis dest).dropLast = false ∧
    ∀ p : Script, p <+: withdrawOutputTemplate txid amount hash genesis dest →
      p ≠ withdrawOutputTemplate txid amount hash genesis dest →
      IsWithdrawOutput p = false := by
  have key : ∀ p : Script, p <+: withdrawOutputTemplate txid amount hash genesis dest →
      p ≠ withdrawOutputTemplate txid amount hash genesis dest →
      IsWithdrawOutput p = false := by
    intro p hp hne
    obtain ⟨x, hx⟩ := hp
    unfold IsWithdrawOutput
    cases hm : matchSteps withdrawOutputSteps p with
    | none => rfl
    | some rest =>
      exfalso
      have h := matchSteps_append _ hm x
      rw [hx, matchSteps_template _ _ _ _ _ h1 h2 h3 h4 h5] at h
      have hnil : x = [] := by
        have := congrArg (Option.map List.length) h
        simp at this
        exact List.eq_nil_of_length_eq_zero (by omega)
      apply hne
      rw [← hx, hnil, List.append_nil]
  refine ⟨key _ (List.dropLast_prefix _) ?_, key⟩
  intro h
  have := congrArg List.length h
  rw [withdrawOutputTemplate_bytes _ _ _ _ _ h1 h2 h3 h4 h5] at this
  simp at this

theorem IsWithdrawOutput_truncated_witness :
    IsWithdrawOutput (withdrawOutputTemplate (List.replicate 32 1) [1, 2, 3, 4]
      (List.replicate 20 2) (List.replicate 32 3) (List.replicate 20 4)).dropLast = false ∧
    ∀ p : Script, p <+: withdrawOutputTemplate (List.replicate 32 1) [1, 2, 3, 4]
        (List.replicate 20 2) (List.replicate 32 3) (List.replicate 20 4) →
      p ≠ withdrawOutputTemplate (List.replicate 32 1) [1, 2, 3, 4]
        (List.replicate 20 2) (List.replicate 32 3) (List.replicate 20 4) →
      IsWithdrawOutput p = false :=
  IsWithdrawOutput_truncated _ _ _ _ _ (by decide) (by decide) (by decide) (by decide)
    (by decide)
theorem matchSteps_cons {bad : Nat → List UInt8 → Bool} {rest : List (Nat → List UInt8 → Bool)}
    {pc q : Script} (h : matchSteps (bad :: rest) pc = some q) :
    ∃ o d pc', GetOp pc = some (o, d, pc') ∧ bad o d = false ∧ matchSteps rest pc' = some q := by
  simp only [matchSteps, matchStep] at h
  cases hg : GetOp pc with
  | none => rw [hg] at h; cases h
  | some r =>
    obtain ⟨o, d, pc'⟩ := r
    rw [hg] at h
    simp only at h
    by_cases hb : bad o d = true
    · rw [if_pos hb] at h; cases h
    · rw [if_neg hb] at h
      exact ⟨o, d, pc', rfl, by simpa using hb, h⟩

/-- What the decoder returns: the opcode is a byte, and an opcode above
`OP_PUSHDATA4` or equal to `OP_0` has an empty operand. -/
theorem GetOp_shape {pc : Script} {o : Nat} {d pc' : Script}
    (h : GetOp pc = some (o, d, pc')) :
    o < 256 ∧ ((OP_PUSHDATA4 < o ∨ o = 0) → d = []) := by
  have key : ∀ {a n : Nat} {q : Script}, readOperand a n q = some (o, d, pc') →
      a = o ∧ d = q.take n := by
    intro a n q h
    unfold readOperand at h
    split at h
    · cases h
    · cases h; exact ⟨rfl, rfl⟩
  match pc, h with
  | b :: pc, h =>
    have hb := toNat_lt b
    simp only [GetOp, OP_PUSHDATA4, OP_PUSHDATA1, OP_PUSHDATA2] at h
    simp only [OP_PUSHDATA4]
    split_ifs at h with h1 h2 h3 h4
    · obtain ⟨e1, e2⟩ := key h
      refine ⟨by omega, ?_⟩
      rintro (h | h)
      · omega
      · rw [e2, e1, h]; rfl
    · match pc, h with
      | n0 :: pc, h => obtain ⟨e1, e2⟩ := key h; exact ⟨by omega, by omega⟩
    · match pc, h with
      | n0 :: n1 :: pc, h => obtain ⟨e1, e2⟩ := key h; exact ⟨by omega, by omega⟩
    · match pc, h with
      | n0 :: n1 :: n2 :: n3 :: pc, h => obtain ⟨e1, e2⟩ := key h; exact ⟨by omega, by omega⟩
    · cases h; exact ⟨hb, fun _ => rfl⟩

theorem set_vch_singleton (b : UInt8) (h : b.toNat < 0x80) : set_vch [b] = b.toNat := by
  simp [set_vch, leMagnitude]
  omega

theorem nthOp_four_template (txid amount hash genesis dest : List UInt8)
    (h1 : txid.length = 32) (h2 : amount.length = 4) (h3 : hash.length = 20)
    (h4 : genesis.length = 32) (h5 : dest.length = 20) :
    nthOp 4 (withdrawOutputTemplate txid amount hash genesis dest) = some (4, amount) := by
  rw [withdrawOutputTemplate_bytes _ _ _ _ _ h1 h2 h3 h4 h5]
  simp only [nthOp]
  rw [GetOp_opcode _ _ (by decide)]
  simp only []
  rw [GetOp_opcode _ _ (by decide)]
  simp only []
  rw [GetOp_direct _ _ _ (by rw [h1]; decide) (by rw [h1]; decide)]
  simp only []
  rw [GetOp_opcode _ _ (by decide)]
  simp only []
  rw [GetOp_direct _ _ _ (by rw [h2]; decide) (by rw [h2]; decide)]
  simp [h2]

theorem GetFraudBounty_fifth (s : Script) (h : IsWithdrawOutput s = true) :
    ∃ opcode data, nthOp 4 s = some (opcode, data) ∧
      GetFraudBounty s = some (elementValue opcode data) := by
  have hm : ∃ pc, matchSteps withdrawOutputSteps s = some pc := by
    unfold IsWithdrawOutput at h
    cases hm : matchSteps withdrawOutputSteps s with
    | none => rw [hm] at h; cases h
    | some pc => exact ⟨pc, rfl⟩
  obtain ⟨pcEnd, hm⟩ := hm
  unfold withdrawOutputSteps at hm
  obtain ⟨o1, d1, pc1, g1, -, hm⟩ := matchSteps_cons hm
  obtain ⟨o2, d2, pc2, g2, -, hm⟩ := matchSteps_cons hm
  obtain ⟨o3, d3, pc3, g3, -, hm⟩ := matchSteps_cons hm
  obtain ⟨o4, d4, pc4, g4, -, hm⟩ := matchSteps_cons hm
  obtain ⟨o5, d5, pc5, g5, b5, -⟩ := matchSteps_cons hm
  refine ⟨o5, d5, ?_, ?_⟩
  · simp [nthOp, g1, g2, g3, g4, g5]
  · obtain ⟨hlt, hnil⟩ := GetOp_shape g5
    simp only [Bool.or_eq_false_iff, beq_eq_false_iff_ne, decide_eq_false_iff_not, OP_RESERVED,
      OP_16, OP_PUSHDATA4] at b5 hnil
    obtain ⟨⟨hres, h16⟩, hlen⟩ := b5
    simp only [GetFraudBounty, h, g1, g2, g3, g4, g5, Bool.not_true, Bool.false_eq_true,
      if_false, elementValue, OP_1, OP_16, OP_1NEGATE, OP_0]
    clear hm g1 g2 g3 g4 g5 h
    by_cases hs : 0x51 ≤ o5
    · have hd : d5 = [] := hnil (Or.inl (by omega))
      subst hd
      have e1 : o5 ≤ 96 ∧ o5 ≥ 81 := ⟨by omega, hs⟩
      have e2 : 81 ≤ o5 ∧ o5 ≤ 96 := ⟨hs, by omega⟩
      have hb : (UInt8.ofNat (o5 - 0x51 + 1)).toNat = o5 - 0x51 + 1 :=
        toNat_ofNat_of_lt _ (by omega)
      simp only [e1, e2, and_self, if_true, List.nil_append, CScriptNum, List.length_singleton]
      rw [if_neg (by omega)]
      simp only [Bool.false_and, Bool.false_eq_true, if_false, Option.map_some', getint64]
      rw [set_vch_singleton _ (by rw [hb]; omega), hb]
      congr 1
      omega
    · have e1 : ¬(o5 ≤ 96 ∧ o5 ≥ 81) := fun e => hs e.2
      have e2 : ¬(81 ≤ o5 ∧ o5 ≤ 96) := fun e => hs e.1
      simp only [e1, e2, if_false]
      by_cases hn : o5 = 0x4f
      · have hd : d5 = [] := hnil (Or.inl (by omega))
        subst hd
        simp only [hn, if_true]
        decide
      · simp only [hn, if_false, CScriptNum]
        rw [if_neg (by simp only [gt_iff_lt] at hlen ⊢; omega)]
        simp only [Bool.false_and, Bool.false_eq_true, if_false, Option.map_some', getint64]
        by_cases hz : o5 = 0
        · have hd : d5 = [] := hnil (Or.inr hz)
          subst hd
          rw [if_pos hz]
          rfl
        · rw [if_neg hz]

/-- C7: on every script accepted by `IsWithdrawOutput`, `GetFraudBounty`
returns (no assertion fails, the script-number decoding does not throw) the
value of the fifth decoded element: `n` for `OP_n`, -1 for `OP_1NEGATE`, 0 for
`OP_0`, the little-endian sign-magnitude value of the operand for a raw push;
on the template script that is the value of the 4-byte amount. -/
theorem GetFraudBounty_value (s : Script) (h : IsWithdrawOutput s = true) :
    (∃ opcode data, nthOp 4 s = some (opcode, data) ∧
      GetFraudBounty s = some (elementValue opcode data)) ∧
    (∀ txid amount hash genesis dest : List UInt8, txid.length = 32 → amount.length = 4 →
      hash.length = 20 → genesis.length = 32 → dest.length = 20 →
      s = withdrawOutputTemplate txid amount hash genesis dest →
      GetFraudBounty s = some (set_vch amount)) := by
  refine ⟨GetFraudBounty_fifth s h, ?_⟩
  intro txid amount hash genesis dest h1 h2 h3 h4 h5 hs
  obtain ⟨o, d, hn, hv⟩ := GetFraudBounty_fifth s h
  rw [hs, nthOp_four_template _ _ _ _ _ h1 h2 h3 h4 h5] at hn
  cases hn
  rw [hv]
  rfl

theorem GetFraudBounty_value_witness :
    IsWithdrawOutput (withdrawOutputTemplate (List.replicate 32 1) [1, 2, 3, 0x84]
      (List.replicate 20 2) (List.replicate 32 3) (List.replicate 20 4)) = true ∧
    GetFraudBounty (withdrawOutputTemplate (List.replicate 32 1) [1, 2, 3, 0x84]
      (List.replicate 20 2) (List.replicate 32 3) (List.replicate 20 4)) =
        some (set_vch [1, 2, 3, 0x84]) ∧
    set_vch [1, 2, 3, 0x84] = -67305985 :=
  ⟨IsWithdrawOutput_of_template _ _ _ _ _ (by decide) (by decide) (by decide) (by decide)
      (by decide),
   (GetFraudBounty_value _ (IsWithdrawOutput_of_template _ _ _ _ _ (by decide) (by decide)
      (by decide) (by decide) (by decide))).2 (List.replicate 32 1) [1, 2, 3, 0x84]
      (List.replicate 20 2) (List.replicate 32 3) (List.replicate 20 4)
      (by decide) (by decide) (by decide) (by decide) (by decide) rfl,
   by decide⟩
theorem withdrawLock_none_bytes (genesis hash : List UInt8)
    (h1 : genesis.length = 32) (h2 : hash.length = 20) :
    withdrawLock none genesis hash = 0x20 :: (genesis ++ 0x14 :: (hash ++ [0xb3])) := by
  have e : ∀ n : Nat, n < 76 → pushPrefix n = [UInt8.ofNat n] := by
    intro n hn; simp [pushPrefix, hn]
  simp only [withdrawLock, push_opcode, push_data, h1, h2, e 32 (by decide), e 20 (by decide)]
  simp only [List.append_assoc, List.cons_append, List.nil_append]
  rfl

theorem withdrawLock_some_bytes (tag genesis hash : List UInt8) (h0 : tag.length = 24)
    (h1 : genesis.length = 32) (h2 : hash.length = 20) :
    withdrawLock (some tag) genesis hash =
      0x18 :: (tag ++ 0x75 :: 0x20 :: (genesis ++ 0x14 :: (hash ++ [0xb3]))) := by
  have e : ∀ n : Nat, n < 76 → pushPrefix n = [UInt8.ofNat n] := by
    intro n hn; simp [pushPrefix, hn]
  simp only [withdrawLock, push_opcode, push_data, h0, h1, h2, e 32 (by decide),
    e 20 (by decide), e 24 (by decide)]
  simp only [List.append_assoc, List.cons_append, List.nil_append]
  rfl

theorem ofVector_val (g : uint256) : uint256.ofVector g.val = g := by
  unfold uint256.ofVector
  rw [dif_pos g.property]

/-- The steps of `IsWithdrawLock` on an untagged lock followed by `x`. -/
theorem IsWithdrawLock_none_append (H : List UInt8 → { v : List UInt8 // v.length = 20 })
    (g : uint256) (hash x : List UInt8) (rd toUs : Bool) (h2 : hash.length = 20) :
    IsWithdrawLock H g rd toUs (withdrawLock none g.val hash ++ x) =
      (!rd && !(toUs && decide (hash ≠ (H expectedScript).val)) &&
        !(toUs && (GetOp x).isSome)) := by
  have hg := g.property
  rw [withdrawLock_none_bytes _ _ hg h2]
  simp only [IsWithdrawLock, List.cons_append, List.append_assoc, List.nil_append]
  rw [GetOp_direct _ _ _ (by rw [hg]; decide) (by rw [hg]; decide)]
  simp only [hg]
  rw [if_neg (by decide)]
  cases rd
  · simp only [Bool.false_eq_true, if_false, ofVector_val]
    rw [GetOp_direct _ _ _ (by rw [h2]; decide) (by rw [h2]; decide)]
    simp only [h2]
    rw [GetOp_opcode _ _ (by decide)]
    cases toUs
    · simp
    · by_cases hh : hash = (H expectedScript).val
      · cases hx : GetOp x <;> simp [hh, hx]
      · simp [hh]
  · simp

theorem tag_check (tag : List UInt8) (h0 : tag.length = 24) :
    (tag.getD 0 0 != 0x50 || tag.getD 1 0 != 0x32 || tag.getD 2 0 != 0x53 ||
      tag.getD 3 0 != 0x48) = decide (tag.take 4 ≠ [0x50, 0x32, 0x53, 0x48]) := by
  match tag, h0 with
  | a :: b :: c :: d :: rest, _ =>
    simp only [List.getD_cons_zero, List.getD_cons_succ, List.take_succ_cons, List.take_zero]
    by_cases ha : a = 0x50 <;> by_cases hb : b = 0x32 <;> by_cases hc : c = 0x53 <;>
      by_cases hd : d = 0x48 <;> simp [ha, hb, hc, hd]

/-- The steps of `IsWithdrawLock` on a tagged lock followed by `x`. -/
theorem IsWithdrawLock_some_append (H : List UInt8 → { v : List UInt8 // v.length = 20 })
    (g : uint256) (tag hash x : List UInt8) (rd toUs : Bool) (h0 : tag.length = 24)
    (h2 : hash.length = 20) :
    IsWithdrawLock H g rd toUs (withdrawLock (some tag) g.val hash ++ x) =
      (!(toUs && decide (tag.take 4 ≠ [0x50, 0x32, 0x53, 0x48])) &&
        !(toUs && decide (hash ≠ (H expectedScript).val)) &&
        !(toUs && (GetOp x).isSome)) := by
  have hg := g.property
  rw [withdrawLock_some_bytes _ _ _ h0 hg h2]
  simp only [IsWithdrawLock, List.cons_append, List.append_assoc, List.nil_append]
  rw [GetOp_direct _ _ _ (by rw [h0]; decide) (by rw [h0]; decide)]
  simp only [h0]
  rw [if_pos (by decide), tag_check tag h0, GetOp_opcode _ _ (by decide)]
  simp only []
  by_cases ht : toUs = true ∧ tag.take 4 ≠ [0x50, 0x32, 0x53, 0x48]
  · simp [ht.1, ht.2]
  · have ht' : (toUs && decide (tag.take 4 ≠ [0x50, 0x32, 0x53, 0x48])) = false := by
      simpa using ht
    rw [ht']
    simp only [Bool.false_eq_true, if_false]
    have hdrop : ((117 : UInt8).toNat != OP_DROP || ([] : List UInt8).length != 0) = false := by
      decide
    rw [hdrop]
    simp only [Bool.false_eq_true, if_false]
    rw [GetOp_direct _ _ _ (by rw [hg]; decide) (by rw [hg]; decide)]
    simp only [hg, ofVector_val]
    rw [if_neg (by decide)]
    rw [GetOp_direct _ _ _ (by rw [h2]; decide) (by rw [h2]; decide)]
    simp only [h2]
    rw [GetOp_opcode _ _ (by decide)]
    cases toUs
    · simp
    · by_cases hh : hash = (H expectedScript).val
      · cases hx : GetOp x <;> simp [hh, hx]
      · simp [hh]
/-- A push through `OP_PUSHDATA1`: the opcode, a length byte, that many bytes. -/
theorem GetOp_pushdata1 (b n : UInt8) (d rest : Script) (hb : b.toNat = OP_PUSHDATA1)
    (h : n.toNat = d.length) :
    GetOp (b :: n :: (d ++ rest)) = some (OP_PUSHDATA1, d, rest) := by
  simp only [OP_PUSHDATA1] at hb
  simp only [GetOp, readOperand, OP_PUSHDATA1, OP_PUSHDATA4, hb]
  rw [if_pos (by omega), if_neg (by omega), if_pos trivial, if_neg (by simp [h])]
  simp [h]

/-- C8: with `fRequireToUs`, the lock `<g> <h> OP_WITHDRAWPROOFVERIFY` for the
genesis hash `g` and a 20-byte `h`, alone or preceded by a 24-byte tag that
starts with "P2SH" and `OP_DROP`, is accepted when `h` is the hash of the
fragment `OP_DROP <144> OP_LESSTHANOREQUAL` (the untagged form when no
destination is required), and is rejected whenever `h` differs from it. -/
theorem IsWithdrawLock_to_us (H : List UInt8 → { v : List UInt8 // v.length = 20 })
    (g : uint256) (h tag : List UInt8) (rd : Bool) (hh : h.length = 20)
    (ht : tag.length = 24) (hp : tag.take 4 = [0x50, 0x32, 0x53, 0x48]) :
    expectedScript = [0x75, 0x02, 0x90, 0x00, 0xa1] ∧
    (h = (H expectedScript).val →
      IsWithdrawLock H g rd true (withdrawLock (some tag) g.val h) = true ∧
      (rd = false → IsWithdrawLock H g rd true (withdrawLock none g.val h) = true)) ∧
    (h ≠ (H expectedScript).val →
      IsWithdrawLock H g rd true (withdrawLock (some tag) g.val h) = false ∧
      IsWithdrawLock H g rd true (withdrawLock none g.val h) = false) := by
  have e1 := IsWithdrawLock_some_append H g tag h [] rd true ht hh
  have e2 := IsWithdrawLock_none_append H g h [] rd true hh
  rw [List.append_nil] at e1 e2
  rw [e1, e2]
  refine ⟨by decide, ?_, ?_⟩
  · intro he
    refine ⟨?_, ?_⟩
    · simp [hp, he, GetOp]
    · intro hrd
      simp [hrd, he, GetOp]
  · intro hne
    simp [hne]

theorem IsWithdrawLock_to_us_witness :
    expectedScript = [0x75, 0x02, 0x90, 0x00, 0xa1] ∧
    (List.replicate 20 (9 : UInt8) = List.replicate 20 9 →
      IsWithdrawLock (fun _ => ⟨List.replicate 20 9, by decide⟩)
        ⟨List.replicate 32 7, by decide⟩ false true
        (withdrawLock (some ([0x50, 0x32, 0x53, 0x48] ++ List.replicate 20 0))
          (List.replicate 32 7) (List.replicate 20 9)) = true ∧
      (false = false →
        IsWithdrawLock (fun _ => ⟨List.replicate 20 9, by decide⟩)
          ⟨List.replicate 32 7, by decide⟩ false true
          (withdrawLock none (List.replicate 32 7) (List.replicate 20 9)) = true)) ∧
    (List.replicate 20 (9 : UInt8) ≠ List.replicate 20 9 →
      IsWithdrawLock (fun _ => ⟨List.replicate 20 9, by decide⟩)
        ⟨List.replicate 32 7, by decide⟩ false true
        (withdrawLock (some ([0x50, 0x32, 0x53, 0x48] ++ List.replicate 20 0))
          (List.replicate 32 7) (List.replicate 20 9)) = false ∧
      IsWithdrawLock (fun _ => ⟨List.replicate 20 9, by decide⟩)
        ⟨List.replicate 32 7, by decide⟩ false true
        (withdrawLock none (List.replicate 32 7) (List.replicate 20 9)) = false) :=
  IsWithdrawLock_to_us (fun _ => ⟨List.replicate 20 9, by decide⟩)
    ⟨List.replicate 32 7, by decide⟩ (List.replicate 20 9)
    ([0x50, 0x32, 0x53, 0x48] ++ List.replicate 20 0) false (by decide) (by decide)
    (by decide)

/-- C2: the well-formed withdrawal output script (tx id of 32 bytes 01, amount
`01 02 03 04`, hash of 20 bytes 02, genesis of 32 bytes 03, destination of 20
bytes 04) is accepted by `IsWithdrawOutput`, and it is still accepted when the
single byte `0x01` (a push whose operand is missing) is appended. -/
theorem IsWithdrawOutput_trailing_byte_accepted :
    IsWithdrawOutput (withdrawOutputTemplate (List.replicate 32 1) [1, 2, 3, 4]
      (List.replicate 20 2) (List.replicate 32 3) (List.replicate 20 4)) = true ∧
    IsWithdrawOutput (withdrawOutputTemplate (List.replicate 32 1) [1, 2, 3, 4]
      (List.replicate 20 2) (List.replicate 32 3) (List.replicate 20 4) ++ [0x01]) = true := by
  refine ⟨IsWithdrawOutput_of_template _ _ _ _ _ (by decide) (by decide) (by decide)
    (by decide) (by decide), ?_⟩
  unfold IsWithdrawOutput
  rw [matchSteps_append _ (matchSteps_template _ _ _ _ _ (by decide) (by decide) (by decide)
    (by decide) (by decide)) [0x01]]
  decide

/-- C9: for every hash function and genesis hash `g`, the lock
`<g> <h> OP_WITHDRAWPROOFVERIFY` with the expected hash `h`, followed by the
byte `0x01` (a push whose operand is missing), is accepted by `IsWithdrawLock`
with `fRequireToUs`, although a byte follows `OP_WITHDRAWPROOFVERIFY`. -/
theorem IsWithdrawLock_trailing_byte_accepted
    (H : List UInt8 → { v : List UInt8 // v.length = 20 }) (g : uint256) :
    IsWithdrawLock H g false true
      (withdrawLock none g.val (H expectedScript).val ++ [0x01]) = true ∧
    (withdrawLock none g.val (H expectedScript).val ++ [0x01]).getLast? = some 0x01 := by
  refine ⟨?_, by simp⟩
  rw [IsWithdrawLock_none_append H g _ [0x01] false true (H expectedScript).property]
  simp
  decide

/-- C3: for every hash function, genesis hash `g` and value of `fRequireToUs`,
`IsWithdrawLock` accepts the lock whose 20-byte script hash is pushed with
`OP_PUSHDATA1` (bytes `4c 14`) rather than with the direct-length opcode
`0x14`: the second decoded element has opcode `OP_PUSHDATA1`. -/
theorem IsWithdrawLock_pushdata1_accepted
    (H : List UInt8 → { v : List UInt8 // v.length = 20 }) (g : uint256) (toUs : Bool) :
    IsWithdrawLock H g false toUs
      (0x20 :: (g.val ++ 0x4c :: 0x14 :: ((H expectedScript).val ++ [0xb3]))) = true ∧
    nthOp 1 (0x20 :: (g.val ++ 0x4c :: 0x14 :: ((H expectedScript).val ++ [0xb3]))) =
      some (OP_PUSHDATA1, (H expectedScript).val) := by
  have hg := g.property
  have h2 := (H expectedScript).property
  constructor
  · simp only [IsWithdrawLock]
    rw [GetOp_direct _ _ _ (by rw [hg]; decide) (by rw [hg]; decide)]
    simp only [hg]
    rw [if_neg (by decide)]
    simp only [Bool.false_eq_true, if_false, ofVector_val]
    rw [GetOp_pushdata1 _ _ _ _ (by decide) (by rw [h2]; decide)]
    simp only [h2]
    rw [show ([0xb3] : List UInt8) = 0xb3 :: [] from rfl, GetOp_opcode _ _ (by decide)]
    cases toUs <;> simp [GetOp]
  · simp only [nthOp]
    rw [GetOp_direct _ _ _ (by rw [hg]; decide) (by rw [hg]; decide)]
    simp only []
    rw [GetOp_pushdata1 _ _ _ _ (by decide) (by rw [h2]; decide)]
    rfl
theorem IsWithdrawProofLoop_iff (fuel : Nat) (pc : Script) (c : Nat) (hf : pc.length ≤ fuel)
    (hc : c + pc.length < 2 ^ 32) :
    IsWithdrawProofLoop fuel pc c = true ↔
      ∃ ops, decodeAllLoop fuel pc = some ops ∧
        (∀ e ∈ ops, e.1 ≤ OP_16 ∧ e.1 ≠ OP_RESERVED) ∧ 10 ≤ c + ops.length := by
  induction fuel generalizing pc c with
  | zero =>
    have hp : pc.length = 0 := by omega
    unfold IsWithdrawProofLoop decodeAllLoop
    simp [hp]
  | succ fuel ih =>
    unfold IsWithdrawProofLoop decodeAllLoop
    by_cases hp : pc.length = 0
    · simp [hp]
    · simp only [hp, if_false]
      cases hg : GetOp pc with
      | none => simp
      | some r =>
        obtain ⟨o, d, pc'⟩ := r
        have hl := GetOp_length hg
        simp only at hl ⊢
        by_cases hb : o > OP_16 ∨ o = OP_RESERVED
        · rw [if_pos hb]
          simp only [Bool.false_eq_true, false_iff, not_exists, not_and]
          intro ops hops hall
          cases hd : decodeAllLoop fuel pc' with
          | none => rw [hd] at hops; cases hops
          | some l =>
            rw [hd] at hops
            cases hops
            have := hall (o, d) (List.mem_cons_self _ _)
            simp only at this
            omega
        · rw [if_neg hb]
          have hmod : (c + 1) % 2 ^ 32 = c + 1 := Nat.mod_eq_of_lt (by omega)
          rw [hmod, ih pc' (c + 1) (by omega) (by omega)]
          constructor
          · rintro ⟨ops, hops, hall, hlen⟩
            refine ⟨(o, d) :: ops, by rw [hops]; rfl, ?_, by simp; omega⟩
            intro e he
            rcases List.mem_cons.1 he with rfl | he
            · simp only; omega
            · exact hall e he
          · rintro ⟨ops, hops, hall, hlen⟩
            cases hd : decodeAllLoop fuel pc' with
            | none => rw [hd] at hops; cases hops
            | some l =>
              rw [hd] at hops
              cases hops
              refine ⟨l, rfl, fun e he => hall e (List.mem_cons_of_mem _ he), ?_⟩
              simp at hlen
              omega

theorem IsPushOnlyLoop_iff (fuel : Nat) (pc : Script) (hf : pc.length ≤ fuel) :
    IsPushOnlyLoop fuel pc = true ↔
      ∃ ops, decodeAllLoop fuel pc = some ops ∧ ∀ e ∈ ops, e.1 ≤ OP_16 := by
  induction fuel generalizing pc with
  | zero =>
    have hp : pc.length = 0 := by omega
    unfold IsPushOnlyLoop decodeAllLoop
    simp [hp]
  | succ fuel ih =>
    unfold IsPushOnlyLoop decodeAllLoop
    by_cases hp : pc.length = 0
    · simp [hp]
    · simp only [hp, if_false]
      cases hg : GetOp pc with
      | none => simp
      | some r =>
        obtain ⟨o, d, pc'⟩ := r
        have hl := GetOp_length hg
        simp only at hl ⊢
        by_cases hb : o > OP_16
        · rw [if_pos hb]
          simp only [Bool.false_eq_true, false_iff, not_exists, not_and]
          intro ops hops hall
          cases hd : decodeAllLoop fuel pc' with
          | none => rw [hd] at hops; cases hops
          | some l =>
            rw [hd] at hops
            cases hops
            have := hall (o, d) (List.mem_cons_self _ _)
            simp only at this
            omega
        · rw [if_neg hb, ih pc' (by omega)]
          constructor
          · rintro ⟨ops, hops, hall⟩
            refine ⟨(o, d) :: ops, by rw [hops]; rfl, ?_⟩
            intro e he
            rcases List.mem_cons.1 he with rfl | he
            · simp only; omega
            · exact hall e he
          · rintro ⟨ops, hops, hall⟩
            cases hd : decodeAllLoop fuel pc' with
            | none => rw [hd] at hops; cases hops
            | some l =>
              rw [hd] at hops
              cases hops
              exact ⟨l, rfl, fun e he => hall e (List.mem_cons_of_mem _ he)⟩

/-- C4 (as amended): for every script shorter than `2^32` bytes,
`IsWithdrawProof` holds exactly when `IsPushOnly` holds, no decoded opcode is
`OP_RESERVED`, and the script decodes to at least 10 opcodes. -/
theorem IsWithdrawProof_iff (s : Script) (hlen : s.length < 2 ^ 32) :
    IsWithdrawProof s = true ↔
      IsPushOnly s = true ∧
        ∃ ops, decodeAll s = some ops ∧ (∀ e ∈ ops, e.1 ≠ OP_RESERVED) ∧ 10 ≤ ops.length := by
  unfold IsWithdrawProof IsPushOnly decodeAll
  rw [IsWithdrawProofLoop_iff _ _ _ (le_refl _) (by omega), IsPushOnlyLoop_iff _ _ (le_refl _)]
  constructor
  · rintro ⟨ops, hops, hall, hn⟩
    exact ⟨⟨ops, hops, fun e he => (hall e he).1⟩, ops, hops, fun e he => (hall e he).2,
      by omega⟩
  · rintro ⟨⟨ops, hops, hall⟩, ops', hops', hres, hn⟩
    rw [hops] at hops'
    cases hops'
    exact ⟨ops, hops, fun e he => ⟨hall e he, hres e he⟩, by omega⟩

theorem IsWithdrawProof_iff_witness :
    (List.replicate 10 (0x51 : UInt8)).length < 2 ^ 32 ∧
    (IsWithdrawProof (List.replicate 10 0x51) = true ↔
      IsPushOnly (List.replicate 10 0x51) = true ∧
        ∃ ops, decodeAll (List.replicate 10 0x51) = some ops ∧
          (∀ e ∈ ops, e.1 ≠ OP_RESERVED) ∧ 10 ≤ ops.length) :=
  ⟨by decide, IsWithdrawProof_iff (List.replicate 10 0x51) (by decide)⟩

/-- C4 (counterexample): the script of ten `OP_RESERVED` bytes is push-only
and decodes to ten opcodes, yet `IsWithdrawProof` rejects it. -/
theorem IsWithdrawProof_reserved_rejected :
    IsPushOnly (List.replicate 10 0x50) = true ∧
    (decodeAll (List.replicate 10 0x50)).map List.length = some 10 ∧
    IsWithdrawProof (List.replicate 10 0x50) = false := by
  decide
/-- A data push decodes to its operand, whatever follows. -/
theorem GetOp_pushPrefix (d rest : Script) (h : d.length < 2 ^ 32) :
    GetOp (pushPrefix d.length ++ d ++ rest) = some (pushOpcodeOf d.length, d, rest) := by
  unfold pushPrefix pushOpcodeOf
  simp only [OP_PUSHDATA1, OP_PUSHDATA2, OP_PUSHDATA4]
  by_cases h1 : d.length < 76
  · rw [if_pos h1, if_pos h1]
    simp only [List.singleton_append, List.cons_append, List.nil_append]
    exact GetOp_direct _ _ _ (toNat_ofNat_of_lt _ (by omega)) h1
  · rw [if_neg h1, if_neg h1]
    by_cases h2 : d.length ≤ 0xff
    · rw [if_pos h2, if_pos h2]
      simp only [List.cons_append, List.nil_append]
      exact GetOp_pushdata1 _ _ _ _ (by decide) (toNat_ofNat_of_lt _ (by omega))
    · rw [if_neg h2, if_neg h2]
      by_cases h3 : d.length ≤ 0xffff
      · rw [if_pos h3, if_pos h3]
        simp only [List.cons_append, List.nil_append, GetOp, readOperand, OP_PUSHDATA1,
          OP_PUSHDATA2, OP_PUSHDATA4]
        have e0 : (UInt8.ofNat 77).toNat = 77 := rfl
        have e1 : (UInt8.ofNat (d.length % 256)).toNat = d.length % 256 :=
          toNat_ofNat_of_lt _ (by omega)
        have e2 : (UInt8.ofNat (d.length / 256 % 256)).toNat = d.length / 256 % 256 :=
          toNat_ofNat_of_lt _ (by omega)
        have e3 : d.length % 256 + 256 * (d.length / 256 % 256) = d.length := by omega
        simp only [e0, e1, e2, e3]
        simp
      · rw [if_neg h3, if_neg h3]
        simp only [List.cons_append, List.nil_append, GetOp, readOperand, OP_PUSHDATA1,
          OP_PUSHDATA2, OP_PUSHDATA4]
        have e0 : (UInt8.ofNat 78).toNat = 78 := rfl
        have e1 : (UInt8.ofNat (d.length % 256)).toNat = d.length % 256 :=
          toNat_ofNat_of_lt _ (by omega)
        have e2 : (UInt8.ofNat (d.length / 256 % 256)).toNat = d.length / 256 % 256 :=
          toNat_ofNat_of_lt _ (by omega)
        have e3 : (UInt8.ofNat (d.length / 65536 % 256)).toNat = d.length / 65536 % 256 :=
          toNat_ofNat_of_lt _ (by omega)
        have e4 : (UInt8.ofNat (d.length / 16777216 % 256)).toNat =
            d.length / 16777216 % 256 := toNat_ofNat_of_lt _ (by omega)
        have e5 : d.length % 256 + 256 * (d.length / 256 % 256) +
            65536 * (d.length / 65536 % 256) + 16777216 * (d.length / 16777216 % 256) =
              d.length := by
          have : (2 : Nat) ^ 32 = 4294967296 := by norm_num
          omega
        simp only [e0, e1, e2, e3, e4, e5]
        simp

theorem decodeAllLoop_fuel_eq (f1 f2 : Nat) (pc : Script) (h1 : pc.length ≤ f1)
    (h2 : pc.length ≤ f2) : decodeAllLoop f1 pc = decodeAllLoop f2 pc := by
  induction f1 generalizing f2 pc with
  | zero =>
    have hp : pc.length = 0 := by omega
    unfold decodeAllLoop
    simp [hp]
  | succ f1 ih =>
    by_cases hp : pc.length = 0
    · unfold decodeAllLoop
      simp [hp]
    · obtain ⟨n, hn⟩ : ∃ n, f2 = n + 1 := ⟨f2 - 1, by omega⟩
      subst hn
      unfold decodeAllLoop
      simp only [hp, if_false]
      cases hg : GetOp pc with
      | none => rfl
      | some r =>
        obtain ⟨o, d, pc'⟩ := r
        have hl := GetOp_length hg
        simp only at hl ⊢
        rw [ih n pc' (by omega) (by omega)]

theorem decodeAllLoop_fuel (fuel : Nat) (pc : Script) (hf : pc.length ≤ fuel) :
    decodeAllLoop fuel pc = decodeAll pc :=
  decodeAllLoop_fuel_eq _ _ _ hf (le_refl _)

theorem decodeAll_nil : decodeAll [] = some [] := rfl

theorem decodeAll_of_GetOp {pc : Script} {o : Nat} {d pc' : Script}
    (hg : GetOp pc = some (o, d, pc')) :
    decodeAll pc = (decodeAll pc').map (fun l => (o, d) :: l) := by
  have hl := GetOp_length hg
  simp only at hl
  obtain ⟨n, hn⟩ : ∃ n, pc.length = n + 1 := ⟨pc.length - 1, by omega⟩
  have hp : pc.length ≠ 0 := by omega
  conv_lhs => unfold decodeAll
  rw [hn]
  unfold decodeAllLoop
  simp only [hp, if_false, hg]
  rw [decodeAllLoop_fuel _ _ (by omega)]

theorem stackizeLoop_eq (fuel : Nat) (pc : Script) (acc : Pushes) (hf : pc.length ≤ fuel) :
    stackizeLoop fuel pc acc = (decodeAll pc).map (fun ops => acc ++ ops.map stackEntry) := by
  induction fuel generalizing pc acc with
  | zero =>
    have hp : pc.length = 0 := by omega
    have : pc = [] := List.eq_nil_of_length_eq_zero hp
    subst this
    unfold stackizeLoop
    simp [decodeAll_nil]
  | succ fuel ih =>
    unfold stackizeLoop
    by_cases hp : pc.length = 0
    · have : pc = [] := List.eq_nil_of_length_eq_zero hp
      subst this
      simp [decodeAll_nil]
    · simp only [hp, if_false]
      cases hg : GetOp pc with
      | none =>
        obtain ⟨n, hn⟩ : ∃ n, pc.length = n + 1 := ⟨pc.length - 1, by omega⟩
        unfold decodeAll
        rw [hn]
        unfold decodeAllLoop
        simp [hp, hg]
      | some r =>
        obtain ⟨o, d, pc'⟩ := r
        have hl := GetOp_length hg
        simp only at hl ⊢
        rw [ih pc' _ (by omega), decodeAll_of_GetOp hg]
        cases decodeAll pc' with
        | none => rfl
        | some l => simp [stackEntry]

/-- The stack of pushes of a script is the list of the stack entries of its
decoded elements. -/
theorem stackize_eq (s : Script) : stackize s = (decodeAll s).map (List.map stackEntry) := by
  unfold stackize
  rw [stackizeLoop_eq _ _ _ (le_refl _)]
  simp
/-- The bytes that `PushWithdraw` appends for the chunks, and their number. -/
theorem PushWithdrawLoop_eq (fuel : Nat) (it : List UInt8) (this : Script) (pushCount : Int) :
    PushWithdrawLoop fuel it this pushCount =
      (this ++ ((chunksOf fuel it).map (fun d => pushPrefix d.length ++ d)).flatten,
        pushCount + (chunksOf fuel it).length) := by
  induction fuel generalizing it this pushCount with
  | zero => simp [PushWithdrawLoop, chunksOf]
  | succ fuel ih =>
    unfold PushWithdrawLoop chunksOf
    by_cases h0 : it.length = 0
    · simp [h0]
    · simp only [h0, if_false]
      by_cases h1 : it.length < 520
      · simp only [h1, if_true]
        rw [ih]
        cases fuel <;> simp [chunksOf, push_data]
      · simp only [h1, if_false]
        rw [ih]
        simp [push_data]
        omega

/-- The chunks of a blob: their concatenation is the blob, each has between 1
and 520 bytes, all but the last have 520 bytes, and there are
`ceil(length / 520)` of them. -/
theorem chunksOf_spec (fuel : Nat) (it : List UInt8) (hf : it.length ≤ fuel) :
    (chunksOf fuel it).flatten = it ∧
    (∀ d ∈ chunksOf fuel it, 1 ≤ d.length ∧ d.length ≤ 520) ∧
    (∀ d ∈ (chunksOf fuel it).dropLast, d.length = 520) ∧
    (chunksOf fuel it).length = (it.length + 519) / 520 := by
  induction fuel generalizing it with
  | zero =>
    have : it = [] := List.eq_nil_of_length_eq_zero (by omega)
    subst this
    simp [chunksOf]
  | succ fuel ih =>
    unfold chunksOf
    by_cases h0 : it.length = 0
    · have : it = [] := List.eq_nil_of_length_eq_zero h0
      subst this
      simp
    · simp only [h0, if_false]
      by_cases h1 : it.length < 520
      · simp only [h1, if_true]
        refine ⟨by simp, ?_, by simp, ?_⟩
        · intro d hd
          simp at hd
          subst hd
          omega
        · simp; omega
      · simp only [h1, if_false]
        have hd : (it.drop 520).length ≤ fuel := by simp; omega
        obtain ⟨e1, e2, e3, e4⟩ := ih (it.drop 520) hd
        refine ⟨?_, ?_, ?_, ?_⟩
        · rw [List.flatten_cons, e1, List.take_append_drop]
        · intro d hd
          rcases List.mem_cons.1 hd with rfl | hd
          · simp; omega
          · exact e2 d hd
        · intro d hd
          cases hc : chunksOf fuel (it.drop 520) with
          | nil => rw [hc] at hd; simp at hd
          | cons a l =>
            rw [hc, List.dropLast_cons₂] at hd
            rcases List.mem_cons.1 hd with rfl | hd
            · simp; omega
            · exact e3 d (by rw [hc]; exact hd)
        · rw [List.length_cons, e4]
          simp
          omega
/-- Decoding a sequence of data pushes followed by `rest`. -/
theorem decodeAll_pushes (cs : Pushes) (rest : Script) (h : ∀ d ∈ cs, d.length < 2 ^ 32) :
    decodeAll ((cs.map (fun d => pushPrefix d.length ++ d)).flatten ++ rest) =
      (decodeAll rest).map (fun l => cs.map (fun d => (pushOpcodeOf d.length, d)) ++ l) := by
  induction cs with
  | nil => simp
  | cons d cs ih =>
    have hd : d.length < 2 ^ 32 := h d (List.mem_cons_self _ _)
    have hg := GetOp_pushPrefix d
      ((cs.map (fun d => pushPrefix d.length ++ d)).flatten ++ rest) hd
    simp only [List.map_cons, List.flatten_cons, List.append_assoc] at hg ⊢
    rw [decodeAll_of_GetOp hg, ih (fun e he => h e (List.mem_cons_of_mem _ he))]
    cases decodeAll rest <;> simp

/-- A chunk keeps its bytes as a stack entry: its push opcode is not a small
integer opcode. -/
theorem stackEntry_push (d : List UInt8) : stackEntry (pushOpcodeOf d.length, d) = d := by
  unfold stackEntry pushOpcodeOf
  simp only [OP_PUSHDATA1, OP_PUSHDATA2, OP_PUSHDATA4, OP_16, OP_1, OP_1NEGATE]
  split_ifs <;> first | rfl | omega

theorem serialize_small (k : Nat) (h0 : 0 < k) (h : k < 32768) :
    serialize (k : Int) =
      if k < 128 then [UInt8.ofNat k] else [UInt8.ofNat (k % 256), UInt8.ofNat (k / 256)] := by
  have hk : (k : Int) ≠ 0 := by omega
  have hn : ¬((k : Int) < 0) := by omega
  unfold serialize
  simp only [hk, if_false, Int.natAbs_ofNat, hn]
  by_cases h1 : k < 256
  · have e : serializeLoop 8 k = [UInt8.ofNat k] := by
      simp only [serializeLoop]
      rw [if_neg (by omega), Nat.mod_eq_of_lt h1, if_pos (by omega)]
    rw [e]
    simp only [List.getLast?_singleton, toNat_ofNat_of_lt k h1]
    by_cases h2 : k < 128
    · rw [if_neg (by omega), if_pos h2]
    · rw [if_pos (by omega), if_neg h2, Nat.mod_eq_of_lt h1, Nat.div_eq_of_lt h1]
      rfl
  · have e : serializeLoop 8 k = [UInt8.ofNat (k % 256), UInt8.ofNat (k / 256)] := by
      simp only [serializeLoop]
      rw [if_neg (by omega), if_neg (by omega), if_pos (by omega),
        Nat.mod_eq_of_lt (show k / 256 < 256 by omega)]
    rw [e]
    have e2 : (UInt8.ofNat (k / 256)).toNat = k / 256 := toNat_ofNat_of_lt _ (by omega)
    simp only [List.getLast?_cons_cons, List.getLast?_singleton, e2]
    rw [if_neg (by omega), if_neg (by omega)]

theorem set_vch_serialize_small (k : Nat) (h0 : 0 < k) (h : k < 32768) :
    set_vch (serialize (k : Int)) = k ∧ 1 ≤ (serialize (k : Int)).length ∧
      (serialize (k : Int)).length ≤ 2 := by
  rw [serialize_small k h0 h]
  by_cases h2 : k < 128
  · rw [if_pos h2]
    refine ⟨?_, by simp, by simp⟩
    rw [set_vch_singleton _ (by rw [toNat_ofNat_of_lt _ (by omega)]; omega),
      toNat_ofNat_of_lt _ (by omega)]
  · rw [if_neg h2]
    refine ⟨?_, by simp, by simp⟩
    have e1 : (UInt8.ofNat (k % 256)).toNat = k % 256 := toNat_ofNat_of_lt _ (by omega)
    have e2 : (UInt8.ofNat (k / 256)).toNat = k / 256 := toNat_ofNat_of_lt _ (by omega)
    simp only [set_vch, List.getLast?_cons_cons, List.getLast?_singleton, e2, leMagnitude, e1]
    rw [if_neg (by omega)]
    push_cast
    omega

/-- What `push_int64` appends for a chunk count, and the stack entry that
`GetWithdrawSpent` makes of it: decoding it is total and gives one element
whose stack entry is at most 2 bytes long and has the count as its value. -/
theorem push_count_decodes (this : Script) (k : Nat) (h : k < 32768) :
    ∃ enc : Script, ∃ e : Nat × List UInt8,
      push_int64 this (k : Int) = this ++ enc ∧ decodeAll enc = some [e] ∧
        (stackEntry e).length ≤ 2 ∧ set_vch (stackEntry e) = k := by
  by_cases h0 : k = 0
  · subst h0
    exact ⟨[0x00], (0, []), by simp [push_int64, push_data, serialize, pushPrefix],
      by decide, by decide, by decide⟩
  · by_cases h16 : k ≤ 16
    · refine ⟨[UInt8.ofNat (k + 0x50)], (k + 0x50, []), ?_, ?_, ?_, ?_⟩
      · unfold push_int64 push_opcode
        rw [if_pos (by omega)]
        congr 3
      · have hb : (UInt8.ofNat (k + 0x50)).toNat = k + 0x50 := toNat_ofNat_of_lt _ (by omega)
        have hg := GetOp_opcode (UInt8.ofNat (k + 0x50)) [] (by rw [hb]; simp only [OP_PUSHDATA4]; omega)
        rw [decodeAll_of_GetOp hg, hb]
        rfl
      · unfold stackEntry
        simp only [OP_16, OP_1]
        rw [if_pos (by omega)]
        simp
      · unfold stackEntry
        simp only [OP_16, OP_1]
        rw [if_pos (by omega)]
        have hb : (UInt8.ofNat (k + 80 - 81 + 1)).toNat = k := by
          rw [toNat_ofNat_of_lt _ (by omega)]; omega
        simp only [List.nil_append]
        rw [set_vch_singleton _ (by omega), hb]
    · obtain ⟨hv, hl1, hl2⟩ := set_vch_serialize_small k (by omega) h
      refine ⟨pushPrefix (serialize (k : Int)).length ++ serialize (k : Int),
        (pushOpcodeOf (serialize (k : Int)).length, serialize (k : Int)), ?_, ?_, ?_, ?_⟩
      · unfold push_int64 push_data
        rw [if_neg (by omega), List.append_assoc]
      · have hg := GetOp_pushPrefix (serialize (k : Int)) [] (by omega)
        rw [List.append_nil] at hg
        rw [decodeAll_of_GetOp hg]
        rfl
      · rw [stackEntry_push]; exact hl2
      · rw [stackEntry_push]; exact hv
/-- The first loop of `PopWithdrawPush` over the top `suf.length` entries:
it succeeds when all of them but the top-most have 520 bytes, and appends
them to the read buffer in their bottom-to-top order. -/
theorem PopWithdrawPushLoop_suffix (pre suf : Pushes) (read : Option (List UInt8))
    (h : ∀ d ∈ suf.dropLast, d.length = 520) :
    PopWithdrawPushLoop (pre ++ suf) suf.length read =
      (true, read.map (fun r => r ++ suf.flatten)) := by
  induction suf generalizing pre read with
  | nil => cases read <;> simp [PopWithdrawPushLoop]
  | cons a l ih =>
    have hget : (pre ++ a :: l).getD ((pre ++ a :: l).length - (l.length + 1)) [] = a := by
      have : (pre ++ a :: l).length - (l.length + 1) = pre.length := by simp
      rw [this, List.getD_eq_getElem?_getD, List.getElem?_append_right (le_refl _)]
      simp
    have hcond : ¬(l.length + 1 ≠ 1 ∧ a.length ≠ 520) := by
      rintro ⟨h1, h2⟩
      cases l with
      | nil => exact h1 rfl
      | cons b l' => exact h2 (h a (by simp))
    have hl : ∀ d ∈ l.dropLast, d.length = 520 := by
      intro d hd
      cases l with
      | nil => simp at hd
      | cons b l' => exact h d (by rw [List.dropLast_cons₂]; exact List.mem_cons_of_mem _ hd)
    rw [List.length_cons]
    unfold PopWithdrawPushLoop
    simp only [hget]
    rw [if_neg hcond]
    have := ih (pre ++ [a]) (read.map (fun r => r ++ a)) hl
    rw [List.append_assoc, List.singleton_append] at this
    rw [this]
    cases read <;> simp

/-- `PopWithdrawPush` on a stack that ends with the chunks `cs` and an entry
that decodes to their number. -/
theorem PopWithdrawPush_chunks (pre cs : Pushes) (entry : List UInt8)
    (read : Option (List UInt8)) (hlen : entry.length ≤ 4) (hv : set_vch entry = cs.length)
    (hk : cs.length ≤ 2000) (h520 : ∀ d ∈ cs.dropLast, d.length = 520) :
    PopWithdrawPush (pre ++ cs ++ [entry]) read =
      some (true, pre, read.map (fun r => r ++ cs.flatten)) := by
  unfold PopWithdrawPush
  simp only [List.getLast?_append, List.getLast?_singleton, Option.or_some, CScriptNum]
  rw [if_neg (by omega)]
  simp only [Bool.false_and, Bool.false_eq_true, if_false, hv, List.dropLast_concat]
  have hg : getint (cs.length : Int) = cs.length := by
    unfold getint
    rw [if_neg (by omega), if_neg (by omega)]
  simp only [hg, Int.toNat_ofNat]
  rw [if_neg (by simp; omega), PopWithdrawPushLoop_suffix pre cs read h520]
  simp

/-- `PopWithdrawPush` returns false when the count on top exceeds 2000. -/
theorem PopWithdrawPush_too_many (pushes : Pushes) (entry : List UInt8)
    (read : Option (List UInt8)) (hlen : entry.length ≤ 4) (hv : 2000 < set_vch entry) :
    PopWithdrawPush (pushes ++ [entry]) read = some (false, pushes, read) := by
  unfold PopWithdrawPush
  simp only [List.getLast?_append, List.getLast?_singleton, Option.or_some, CScriptNum]
  rw [if_neg (by omega)]
  simp only [Bool.false_and, Bool.false_eq_true, if_false, List.dropLast_concat]
  have hg : 2000 < getint (set_vch entry) := by
    unfold getint
    split_ifs <;> omega
  rw [if_pos (Or.inr (Or.inl hg))]

/-- The stack of pushes of the script that `PushWithdraw` builds from the
empty script: the chunks of the blob and an entry, at most 2 bytes long, whose
value is their number. -/
theorem stackize_PushWithdraw (b : List UInt8) (h : b.length < 520 * 32767) :
    ∃ entry : List UInt8, entry.length ≤ 2 ∧
      set_vch entry = ((chunksOf b.length b).length : Int) ∧
      stackize (PushWithdraw [] b) = some (chunksOf b.length b ++ [entry]) := by
  obtain ⟨-, hsz, -, hcount⟩ := chunksOf_spec b.length b (le_refl _)
  have hk : (chunksOf b.length b).length < 32768 := by rw [hcount]; omega
  unfold PushWithdraw
  rw [PushWithdrawLoop_eq]
  simp only [List.nil_append, Int.zero_add]
  obtain ⟨enc, e, henc, hdec, hl, hv⟩ := push_count_decodes
    ((chunksOf b.length b).map (fun d => pushPrefix d.length ++ d)).flatten
    (chunksOf b.length b).length hk
  refine ⟨stackEntry e, hl, hv, ?_⟩
  rw [henc, stackize_eq, decodeAll_pushes _ _ (fun d hd => by have := hsz d hd; omega), hdec]
  have hmap : List.map (stackEntry ∘ fun d => (pushOpcodeOf d.length, d))
      (chunksOf b.length b) = chunksOf b.length b := by
    conv_rhs => rw [← List.map_id (chunksOf b.length b)]
    exact List.map_congr_left (fun d _ => stackEntry_push d)
  simp [hmap]
/-- C1 (as amended): for every blob `b` of at most 2000 chunks (at most
1040000 bytes, the empty blob included), the script that `PushWithdraw(b)`
builds on an empty script turns into a stack of pushes on which
`PopWithdrawPush` with a read buffer succeeds, yields exactly `b` in the read
buffer, and leaves the stack empty. -/
theorem PushWithdraw_PopWithdrawPush (b : List UInt8) (h : b.length ≤ 1040000) :
    ∃ pushes, stackize (PushWithdraw [] b) = some pushes ∧
      PopWithdrawPush pushes (some []) = some (true, [], some b) := by
  obtain ⟨entry, hl, hv, hs⟩ := stackize_PushWithdraw b (by omega)
  obtain ⟨hjoin, -, h520, hcount⟩ := chunksOf_spec b.length b (le_refl _)
  refine ⟨_, hs, ?_⟩
  have := PopWithdrawPush_chunks [] (chunksOf b.length b) entry (some []) (by omega) hv
    (by rw [hcount]; omega) h520
  rw [List.nil_append] at this
  rw [this, hjoin]
  rfl

theorem PushWithdraw_PopWithdrawPush_witness :
    ([1, 2, 3] : List UInt8).length ≤ 1040000 ∧
    ∃ pushes, stackize (PushWithdraw [] [1, 2, 3]) = some pushes ∧
      PopWithdrawPush pushes (some []) = some (true, [], some [1, 2, 3]) :=
  ⟨by decide, PushWithdraw_PopWithdrawPush [1, 2, 3] (by decide)⟩

/-- C1 (counterexample): for the blob of 1040001 zero bytes (2001 chunks),
`PopWithdrawPush` returns false on the stack of pushes of the script that
`PushWithdraw` builds: the chunk count exceeds 2000. -/
theorem PushWithdraw_PopWithdrawPush_too_long :
    ∃ pushes, stackize (PushWithdraw [] (List.replicate 1040001 0)) = some pushes ∧
      PopWithdrawPush pushes (some []) = some (false, pushes.dropLast, some []) := by
  have hlen : (List.replicate 1040001 (0 : UInt8)).length = 1040001 := List.length_replicate _ _
  obtain ⟨entry, hl, hv, hs⟩ := stackize_PushWithdraw (List.replicate 1040001 0)
    (by rw [hlen]; norm_num)
  obtain ⟨-, -, -, hcount⟩ := chunksOf_spec _ (List.replicate 1040001 (0 : UInt8)) (le_refl _)
  refine ⟨_, hs, ?_⟩
  rw [List.dropLast_concat]
  apply PopWithdrawPush_too_many _ _ _ (by omega)
  rw [hv, hcount, hlen]
  norm_num
theorem leMagnitude_lt (vch : List UInt8) : leMagnitude vch < 256 ^ vch.length := by
  induction vch with
  | nil => simp [leMagnitude]
  | cons b bs ih =>
    have hb := toNat_lt b
    simp only [leMagnitude, List.length_cons, pow_succ]
    omega

theorem leMagnitude_append (a b : List UInt8) :
    leMagnitude (a ++ b) = leMagnitude a + 256 ^ a.length * leMagnitude b := by
  induction a with
  | nil => simp [leMagnitude]
  | cons x xs ih =>
    show x.toNat + 256 * leMagnitude (xs ++ b) =
      x.toNat + 256 * leMagnitude xs + 256 ^ (xs.length + 1) * leMagnitude b
    rw [ih, pow_succ]
    ring

/-- A script number of at most 4 bytes is within the range of a 32-bit `int`,
so `getint` returns it unchanged. -/
theorem set_vch_bound (vch : List UInt8) (h : vch.length ≤ 4) :
    -2147483647 ≤ set_vch vch ∧ set_vch vch ≤ 2147483647 := by
  rcases List.eq_nil_or_concat vch with rfl | ⟨init, top, rfl⟩
  · simp [set_vch]
  · rw [List.concat_eq_append] at h ⊢
    have hk : init.length ≤ 3 := by simpa using h
    have hm := leMagnitude_lt init
    have ht := toNat_lt top
    simp only [set_vch, List.getLast?_append, List.getLast?_singleton, Option.or_some,
      leMagnitude_append, leMagnitude, List.length_append, List.length_singleton,
      Nat.add_sub_cancel]
    generalize leMagnitude init = m at hm ⊢
    generalize top.toNat = t at ht ⊢
    have hcases : init.length = 0 ∨ init.length = 1 ∨ init.length = 2 ∨ init.length = 3 := by
      omega
    rcases hcases with e | e | e | e <;> rw [e] at hm ⊢ <;> norm_num at hm ⊢ <;>
      split_ifs <;> omega

theorem getint_set_vch (vch : List UInt8) (h : vch.length ≤ 4) :
    getint (set_vch vch) = set_vch vch := by
  obtain ⟨h1, h2⟩ := set_vch_bound vch h
  unfold getint
  rw [if_neg (by omega), if_neg (by omega)]
/-- C10: for every script accepted by `IsWithdrawProof` whose stack of pushes
ends, bottom to top, with the chunks of a blob `T` and their count, an
output-index entry, and the chunks of a coinbase blob and their count (both
groups valid for `PopWithdrawPush`), if the deserializer parses `T` into `tx`
and the index `n` satisfies `0 ≤ n < tx.vout.size()`, then `GetWithdrawSpent`
returns the outpoint `(tx.GetBitcoinHash(), n)`, whatever the coinbase chunks
are. -/
theorem GetWithdrawSpent_outpoint (deserialize : List UInt8 → Option CTransaction)
    (s : Script) (base chunksT chunksC : Pushes) (countT index countC : List UInt8)
    (tx : CTransaction) (hp : IsWithdrawProof s = true)
    (hs : stackize s = some (base ++ chunksT ++ [countT] ++ [index] ++ chunksC ++ [countC]))
    (hT : validChunkGroup chunksT countT) (hC : validChunkGroup chunksC countC)
    (hi : index.length ≤ 4) (hd : deserialize chunksT.flatten = some tx)
    (h0 : 0 ≤ set_vch index) (hn : set_vch index < (tx.voutSize : Int)) :
    GetWithdrawSpent deserialize s = some ⟨tx.bitcoinHash, (set_vch index).toNat⟩ := by
  obtain ⟨hT1, hT2, hT3, hT4⟩ := hT
  obtain ⟨hC1, hC2, hC3, hC4⟩ := hC
  have e1 := PopWithdrawPush_chunks (base ++ chunksT ++ [countT] ++ [index]) chunksC countC
    none hC1 hC2 hC3 hC4
  have e2 := PopWithdrawPush_chunks base chunksT countT (some []) hT1 hT2 hT3 hT4
  obtain ⟨hb1, hb2⟩ := set_vch_bound index hi
  have hmod : (set_vch index).toNat % 2 ^ 32 = (set_vch index).toNat :=
    Nat.mod_eq_of_lt (by omega)
  unfold GetWithdrawSpent
  simp only [hp, hs, e1, popOk, Bool.not_true, Bool.false_eq_true, if_false,
    List.getLast?_append, List.getLast?_singleton, Option.or_some, CScriptNum]
  rw [if_neg (by omega)]
  simp only [Bool.false_and, Bool.false_eq_true, if_false, List.dropLast_concat, e2,
    Option.map_some', List.nil_append, Option.getD_some, hd, getint_set_vch index hi, hmod]
  rw [if_neg (by omega)]

theorem GetWithdrawSpent_outpoint_witness :
    GetWithdrawSpent (fun _ => some ⟨1, ⟨List.replicate 32 7, by decide⟩⟩)
      [0, 0, 0, 0, 0, 0, 3, 1, 2, 3, 0x51, 0x00, 0x00] =
        some ⟨⟨List.replicate 32 7, by decide⟩, (set_vch []).toNat⟩ :=
  GetWithdrawSpent_outpoint (fun _ => some ⟨1, ⟨List.replicate 32 7, by decide⟩⟩)
    [0, 0, 0, 0, 0, 0, 3, 1, 2, 3, 0x51, 0x00, 0x00]
    [[], [], [], [], [], []] [[1, 2, 3]] [] [1] [] [] ⟨1, ⟨List.replicate 32 7, by decide⟩⟩
    (by decide) (by decide) (by decide) (by decide) (by decide) rfl (by decide) (by decide)
theorem IsWithdrawProofLoop_decodes (fuel : Nat) (pc : Script) (c : Nat)
    (h : IsWithdrawProofLoop fuel pc c = true) :
    ∃ ops, decodeAllLoop fuel pc = some ops := by
  induction fuel generalizing pc c with
  | zero =>
    unfold IsWithdrawProofLoop at h
    unfold decodeAllLoop
    by_cases hp : pc.length = 0
    · simp [hp]
    · simp [hp] at h
  | succ fuel ih =>
    unfold IsWithdrawProofLoop at h
    unfold decodeAllLoop
    by_cases hp : pc.length = 0
    · simp [hp]
    · simp only [hp, if_false] at h ⊢
      cases hg : GetOp pc with
      | none => rw [hg] at h; cases h
      | some r =>
        obtain ⟨o, d, pc'⟩ := r
        rw [hg] at h
        simp only at h ⊢
        split_ifs at h with hb
        obtain ⟨ops, hops⟩ := ih pc' _ h
        exact ⟨(o, d) :: ops, by rw [hops]; rfl⟩

/-- On a script accepted by `IsWithdrawProof` the stack of pushes is built
without a failed assertion. -/
theorem stackize_of_IsWithdrawProof (s : Script) (h : IsWithdrawProof s = true) :
    ∃ pushes, stackize s = some pushes := by
  obtain ⟨ops, hops⟩ := IsWithdrawProofLoop_decodes _ _ _ h
  exact ⟨ops.map stackEntry, by rw [stackize_eq]; unfold decodeAll; rw [hops]; rfl⟩

/-- C11: on every script accepted by `IsWithdrawProof`, `GetWithdrawSpent`
returns an outpoint (no assertion fails, no exception escapes), and it returns
the null outpoint `COutPoint()` whenever a `PopWithdrawPush` step does not
return true (a chunk count longer than 4 bytes among the causes), the stack is
empty where the output index is expected, the output index is longer than 4
bytes, the transaction fails to deserialize, or the output index is negative
or not less than the number of outputs of the transaction. -/
theorem GetWithdrawSpent_failures (deserialize : List UInt8 → Option CTransaction)
    (s : Script) (hp : IsWithdrawProof s = true) :
    ∃ pushes, stackize s = some pushes ∧
      (∃ out, GetWithdrawSpent deserialize s = some out) ∧
      ((∀ p r, PopWithdrawPush pushes none ≠ some (true, p, r)) →
        GetWithdrawSpent deserialize s = some COutPoint.null) ∧
      (∀ count, pushes.getLast? = some count → 4 < count.length →
        GetWithdrawSpent deserialize s = some COutPoint.null) ∧
      (∀ p1 r1, PopWithdrawPush pushes none = some (true, p1, r1) →
        (p1 = [] → GetWithdrawSpent deserialize s = some COutPoint.null) ∧
        (∀ index, p1.getLast? = some index →
          (4 < index.length → GetWithdrawSpent deserialize s = some COutPoint.null) ∧
          ((∀ p r, PopWithdrawPush p1.dropLast (some []) ≠ some (true, p, r)) →
            GetWithdrawSpent deserialize s = some COutPoint.null) ∧
          (∀ count, p1.dropLast.getLast? = some count → 4 < count.length →
            GetWithdrawSpent deserialize s = some COutPoint.null) ∧
          (∀ p2 vTx, PopWithdrawPush p1.dropLast (some []) = some (true, p2, vTx) →
            (deserialize (vTx.getD []) = none →
              GetWithdrawSpent deserialize s = some COutPoint.null) ∧
            (∀ tx, deserialize (vTx.getD []) = some tx →
              (set_vch index < 0 ∨ (tx.voutSize : Int) ≤ set_vch index) →
              GetWithdrawSpent deserialize s = some COutPoint.null)))) := by
  obtain ⟨pushes, hs⟩ := stackize_of_IsWithdrawProof s hp
  have hthrow : ∀ (st : Pushes) (rd : Option (List UInt8)) (count : List UInt8),
      st.getLast? = some count → 4 < count.length → PopWithdrawPush st rd = none := by
    intro st rd count h1 h2
    unfold PopWithdrawPush
    simp only [h1, CScriptNum]
    rw [if_pos (by omega)]
  have hnot : ∀ (st : Pushes) (rd : Option (List UInt8)),
      (∀ p r, PopWithdrawPush st rd ≠ some (true, p, r)) → popOk (PopWithdrawPush st rd) = none := by
    intro st rd h
    cases hr : PopWithdrawPush st rd with
    | none => rfl
    | some r =>
      obtain ⟨f, p, r'⟩ := r
      cases f
      · rfl
      · exact absurd hr (h p r')
  refine ⟨pushes, hs, ?_, ?_, ?_, ?_⟩
  · unfold GetWithdrawSpent
    simp only [hp, hs, Bool.not_true, Bool.false_eq_true, if_false]
    repeat' split
    all_goals exact ⟨_, rfl⟩
  · intro h
    unfold GetWithdrawSpent
    simp only [hp, hs, Bool.not_true, Bool.false_eq_true, if_false, hnot _ _ h]
  · intro count h1 h2
    unfold GetWithdrawSpent
    simp only [hp, hs, Bool.not_true, Bool.false_eq_true, if_false, hthrow _ _ _ h1 h2, popOk]
  · intro p1 r1 h1
    have e1 : popOk (PopWithdrawPush pushes none) = some (p1, r1) := by rw [h1]; rfl
    refine ⟨?_, ?_⟩
    · intro hnil
      unfold GetWithdrawSpent
      simp only [hp, hs, Bool.not_true, Bool.false_eq_true, if_false, e1, hnil,
        List.getLast?_nil]
    · intro index hidx
      refine ⟨?_, ?_, ?_, ?_⟩
      · intro hlen
        unfold GetWithdrawSpent
        simp only [hp, hs, Bool.not_true, Bool.false_eq_true, if_false, e1, hidx, CScriptNum]
        rw [if_pos (by omega)]
      · intro h
        unfold GetWithdrawSpent
        simp only [hp, hs, Bool.not_true, Bool.false_eq_true, if_false, e1, hidx,
          hnot _ _ h]
        split <;> rfl
      · intro count hc1 hc2
        have e3 : popOk (PopWithdrawPush p1.dropLast (some [])) = none := by
          rw [hthrow _ _ _ hc1 hc2]; rfl
        unfold GetWithdrawSpent
        simp only [hp, hs, Bool.not_true, Bool.false_eq_true, if_false, e1, hidx, e3]
        split <;> rfl
      · intro p2 vTx h2
        have e2 : popOk (PopWithdrawPush p1.dropLast (some [])) = some (p2, vTx) := by
          rw [h2]; rfl
        refine ⟨?_, ?_⟩
        · intro hd
          unfold GetWithdrawSpent
          simp only [hp, hs, Bool.not_true, Bool.false_eq_true, if_false, e1, hidx, e2, hd]
          split <;> rfl
        · intro tx hd hbad
          by_cases hlen : 4 < index.length
          · unfold GetWithdrawSpent
            simp only [hp, hs, Bool.not_true, Bool.false_eq_true, if_false, e1, hidx,
              CScriptNum]
            rw [if_pos (by omega)]
          · have hg := getint_set_vch index (by omega)
            obtain ⟨hb1, hb2⟩ := set_vch_bound index (by omega)
            unfold GetWithdrawSpent
            simp only [hp, hs, Bool.not_true, Bool.false_eq_true, if_false, e1, hidx,
              CScriptNum]
            rw [if_neg (by omega)]
            simp only [Bool.false_and, Bool.false_eq_true, if_false, e2, hd, hg]
            rw [if_pos]
            rcases hbad with hneg | hge
            · exact Or.inl hneg
            · by_cases hneg : set_vch index < 0
              · exact Or.inl hneg
              · right
                have : (set_vch index).toNat % 2 ^ 32 = (set_vch index).toNat :=
                  Nat.mod_eq_of_lt (by omega)
                rw [this]
                omega

theorem GetWithdrawSpent_failures_witness :
    ∃ pushes, stackize (List.replicate 10 0x51) = some pushes ∧
      (∃ out, GetWithdrawSpent (fun _ => none) (List.replicate 10 0x51) = some out) :=
  (GetWithdrawSpent_failures (fun _ => none) (List.replicate 10 0x51) (by decide)).imp
    (fun _ h => ⟨h.1, h.2.1⟩)
/-- The flag of the first loop of `PopWithdrawPush` over the top `suf.length`
entries: true exactly when all of them but the top-most have 520 bytes. -/
theorem PopWithdrawPushLoop_flag (pre suf : Pushes) (read : Option (List UInt8)) :
    (PopWithdrawPushLoop (pre ++ suf) suf.length read).1 =
      decide (∀ d ∈ suf.dropLast, d.length = 520) := by
  induction suf generalizing pre read with
  | nil => simp [PopWithdrawPushLoop]
  | cons a l ih =>
    have hget : (pre ++ a :: l).getD ((pre ++ a :: l).length - (l.length + 1)) [] = a := by
      have : (pre ++ a :: l).length - (l.length + 1) = pre.length := by simp
      rw [this, List.getD_eq_getElem?_getD, List.getElem?_append_right (le_refl _)]
      simp
    rw [List.length_cons]
    unfold PopWithdrawPushLoop
    simp only [hget]
    cases l with
    | nil => simp [PopWithdrawPushLoop]
    | cons b l' =>
      by_cases ha : a.length = 520
      · rw [if_neg (by simp [ha])]
        have := ih (pre ++ [a]) (read.map (fun r => r ++ a))
        rw [List.append_assoc, List.singleton_append] at this
        rw [this]
        simp [List.dropLast_cons₂, ha]
      · rw [if_pos ⟨by simp, ha⟩]
        simp [List.dropLast_cons₂, ha]

/-- `PopWithdrawPush` on a stack whose top entry decodes as a script number:
the returned flag. -/
theorem PopWithdrawPush_top (below : Pushes) (top : List UInt8) (read : Option (List UInt8))
    (h : top.length ≤ 4) :
    ∃ p r, PopWithdrawPush (below ++ [top]) read =
      some (decide (0 ≤ set_vch top ∧ set_vch top ≤ 2000 ∧
        set_vch top ≤ (below.length : Int) ∧
        ∀ d ∈ (below.drop (below.length - (set_vch top).toNat)).dropLast, d.length = 520),
        p, r) := by
  have hg := getint_set_vch top h
  unfold PopWithdrawPush
  simp only [List.getLast?_append, List.getLast?_singleton, Option.or_some, CScriptNum]
  rw [if_neg (by omega)]
  simp only [Bool.false_and, Bool.false_eq_true, if_false, List.dropLast_concat, hg]
  by_cases hc : set_vch top < 0 ∨ set_vch top > 2000 ∨ below.length < (set_vch top).toNat
  · rw [if_pos hc]
    have hdec : decide (0 ≤ set_vch top ∧ set_vch top ≤ 2000 ∧
        set_vch top ≤ (below.length : Int) ∧
        ∀ d ∈ (below.drop (below.length - (set_vch top).toNat)).dropLast, d.length = 520)
        = false := by
      rw [decide_eq_false_iff_not]
      rintro ⟨h1, h2, h3, -⟩
      omega
    rw [hdec]
    exact ⟨_, _, rfl⟩
  · rw [if_neg hc]
    have hk : (set_vch top).toNat ≤ below.length := by omega
    have hsplit : below = below.take (below.length - (set_vch top).toNat) ++
        below.drop (below.length - (set_vch top).toNat) := (List.take_append_drop _ _).symm
    have hlen : (below.drop (below.length - (set_vch top).toNat)).length =
        (set_vch top).toNat := by simp; omega
    have hflag := PopWithdrawPushLoop_flag (below.take (below.length - (set_vch top).toNat))
      (below.drop (below.length - (set_vch top).toNat)) read
    rw [← hsplit, hlen] at hflag
    cases hl : PopWithdrawPushLoop below (set_vch top).toNat read with
    | mk f r =>
      rw [hl] at hflag
      simp only at hflag
      have hdec : decide (0 ≤ set_vch top ∧ set_vch top ≤ 2000 ∧
          set_vch top ≤ (below.length : Int) ∧
          ∀ d ∈ (below.drop (below.length - (set_vch top).toNat)).dropLast, d.length = 520)
          = f := by
        rw [hflag]
        have h1 : 0 ≤ set_vch top := by omega
        have h2 : set_vch top ≤ 2000 := by omega
        have h3 : set_vch top ≤ (below.length : Int) := by omega
        simp [h1, h2, h3]
      rw [hdec]
      cases f <;> exact ⟨_, _, rfl⟩

/-- C12: on a stack whose top entry has at most 4 bytes, `PopWithdrawPush`
returns false if the count `k` decoded from the top entry is negative, greater
than 2000 or greater than the number of entries below it, or if one of the `k`
entries below the count other than the top-most one does not have exactly 520
bytes, and returns true in every other case; on the empty stack it returns
false. -/
theorem PopWithdrawPush_returns (below : Pushes) (top : List UInt8)
    (read : Option (List UInt8)) (h : top.length ≤ 4) :
    (∃ flag p r, PopWithdrawPush (below ++ [top]) read = some (flag, p, r) ∧
      (flag = false ↔
        set_vch top < 0 ∨ 2000 < set_vch top ∨ (below.length : Int) < set_vch top ∨
        ∃ d ∈ (below.drop (below.length - (set_vch top).toNat)).dropLast, d.length ≠ 520)) ∧
    PopWithdrawPush [] read = some (false, [], read) := by
  refine ⟨?_, rfl⟩
  obtain ⟨p, r, hpr⟩ := PopWithdrawPush_top below top read h
  refine ⟨_, p, r, hpr, ?_⟩
  rw [decide_eq_false_iff_not]
  constructor
  · intro hn
    by_contra hc
    push_neg at hc
    exact hn ⟨by omega, by omega, by omega, hc.2.2.2⟩
  · rintro (h1 | h1 | h1 | ⟨d, hd, hne⟩) ⟨h2, h3, h4, h5⟩
    · omega
    · omega
    · omega
    · exact hne (h5 d hd)

theorem PopWithdrawPush_returns_witness :
    (∃ flag p r, PopWithdrawPush ([[1, 2, 3]] ++ [[1]]) (some []) = some (flag, p, r) ∧
      (flag = false ↔
        set_vch [1] < 0 ∨ 2000 < set_vch [1] ∨ (([[1, 2, 3]] : Pushes).length : Int) < set_vch [1] ∨
        ∃ d ∈ ((([[1, 2, 3]] : Pushes).drop (([[1, 2, 3]] : Pushes).length -
          (set_vch [1]).toNat)).dropLast), d.length ≠ 520)) ∧
    PopWithdrawPush [] (some []) = some (false, [], some []) :=
  PopWithdrawPush_returns [[1, 2, 3]] [1] (some []) (by decide)
/-- C13: whenever `PopWithdrawPush` returns true, the stack was the remaining
stack followed by `k` chunks and a top entry that decodes to `k`: exactly those
`k + 1` entries have been removed, the entries beneath are unchanged and in the
same order, and a supplied read buffer has received, after its previous
contents, the concatenation of the `k` chunks in their bottom-to-top order. -/
theorem PopWithdrawPush_success (pushes rest : Pushes) (read read' : Option (List UInt8))
    (h : PopWithdrawPush pushes read = some (true, rest, read')) :
    ∃ (chunks : Pushes) (top : List UInt8),
      pushes = rest ++ chunks ++ [top] ∧ CScriptNum top false 4 = some (chunks.length : Int) ∧
      read' = read.map (fun r => r ++ chunks.flatten) := by
  rcases List.eq_nil_or_concat pushes with rfl | ⟨below, top, rfl⟩
  · simp [PopWithdrawPush] at h
  · rw [List.concat_eq_append] at h ⊢
    by_cases hlen : top.length ≤ 4
    · obtain ⟨p, r, hpr⟩ := PopWithdrawPush_top below top read hlen
      rw [hpr] at h
      simp only [Option.some.injEq, Prod.mk.injEq, decide_eq_true_eq] at h
      obtain ⟨⟨h0, h2000, hle, h520⟩, hp', hr'⟩ := h
      have hk : (set_vch top).toNat ≤ below.length := by omega
      have hsplit : below = below.take (below.length - (set_vch top).toNat) ++
          below.drop (below.length - (set_vch top).toNat) := (List.take_append_drop _ _).symm
      have hcl : (below.drop (below.length - (set_vch top).toNat)).length =
          (set_vch top).toNat := by simp; omega
      have hv : set_vch top = ((below.drop (below.length - (set_vch top).toNat)).length : Int) := by
        rw [hcl]; omega
      have e := PopWithdrawPush_chunks (below.take (below.length - (set_vch top).toNat))
        (below.drop (below.length - (set_vch top).toNat)) top read hlen hv
        (by rw [hcl]; omega) h520
      rw [← hsplit, hpr] at e
      simp only [Option.some.injEq, Prod.mk.injEq] at e
      obtain ⟨-, e1, e2⟩ := e
      refine ⟨below.drop (below.length - (set_vch top).toNat), top, ?_, ?_, ?_⟩
      · rw [← hp', e1, ← hsplit]
      · unfold CScriptNum
        rw [if_neg (by omega)]
        simp only [Bool.false_and, Bool.false_eq_true, if_false, ← hv]
      · rw [← hr', e2]
    · exfalso
      unfold PopWithdrawPush at h
      simp only [List.getLast?_append, List.getLast?_singleton, Option.or_some, CScriptNum] at h
      rw [if_pos (by omega)] at h
      cases h

theorem PopWithdrawPush_success_witness :
    ∃ (chunks : Pushes) (top : List UInt8),
      ([[9], [1, 2, 3], [1]] : Pushes) = [[9]] ++ chunks ++ [top] ∧
      CScriptNum top false 4 = some (chunks.length : Int) ∧
      some [7, 1, 2, 3] = (some [7] : Option (List UInt8)).map (fun r => r ++ chunks.flatten) :=
  PopWithdrawPush_success [[9], [1, 2, 3], [1]] [[9]] (some [7]) (some [7, 1, 2, 3])
    (by decide)
/-- The chunk of index `i` is the bytes `[520 i, min (520 (i + 1)) n)` of the blob. -/
theorem chunksOf_get (fuel : Nat) (it : List UInt8) (hf : it.length ≤ fuel) (i : Nat)
    (hi : i < (chunksOf fuel it).length) :
    (chunksOf fuel it)[i]? = some ((it.drop (520 * i)).take 520) := by
  induction fuel generalizing it i with
  | zero => simp [chunksOf] at hi
  | succ fuel ih =>
    unfold chunksOf at hi ⊢
    by_cases h0 : it.length = 0
    · simp [h0] at hi
    · simp only [h0, if_false] at hi ⊢
      by_cases h1 : it.length < 520
      · simp only [h1, if_true, List.length_singleton] at hi ⊢
        have : i = 0 := by omega
        subst this
        simp
        omega
      · simp only [h1, if_false] at hi ⊢
        cases i with
        | zero => simp
        | succ j =>
          have hj : j < (chunksOf fuel (it.drop 520)).length := by simpa using hi
          rw [List.getElem?_cons_succ, ih (it.drop 520) (by simp; omega) j hj, List.drop_drop]
          congr 2
          ring_nf

theorem foldl_push_data (cs : Pushes) (this : Script) :
    cs.foldl push_data this = this ++ (cs.map (fun d => pushPrefix d.length ++ d)).flatten := by
  induction cs generalizing this with
  | nil => simp
  | cons d cs ih =>
    rw [List.foldl_cons, ih]
    simp [push_data]

/-- C14: for every blob `b` of length `n`, `PushWithdraw` appends to the
script `ceil(n / 520)` data pushes followed by one push of the integer
`ceil(n / 520)`; the data push of index `i` is the bytes
`[520 i, min (520 (i + 1)) n)` of `b`, every chunk but the last has exactly
520 bytes, no chunk is empty, the chunks concatenated in order are `b`, and for
the empty blob only the count 0 is pushed. -/
theorem PushWithdraw_layout (this : Script) (b : List UInt8) :
    ∃ chunks : Pushes,
      PushWithdraw this b = push_int64 (chunks.foldl push_data this) (chunks.length : Int) ∧
      chunks.length = (b.length + 519) / 520 ∧
      (∀ i, i < chunks.length → chunks[i]? = some ((b.drop (520 * i)).take 520)) ∧
      (∀ d ∈ chunks.dropLast, d.length = 520) ∧
      (∀ d ∈ chunks, d ≠ [] ∧ d.length ≤ 520) ∧
      chunks.flatten = b ∧
      (b = [] → PushWithdraw this b = push_int64 this 0) := by
  obtain ⟨hjoin, hsz, h520, hcount⟩ := chunksOf_spec b.length b (le_refl _)
  refine ⟨chunksOf b.length b, ?_, hcount, chunksOf_get _ _ (le_refl _), h520, ?_, hjoin, ?_⟩
  · unfold PushWithdraw
    rw [PushWithdrawLoop_eq, foldl_push_data]
    simp
  · intro d hd
    obtain ⟨h1, h2⟩ := hsz d hd
    refine ⟨?_, h2⟩
    intro hnil
    rw [hnil] at h1
    simp at h1
  · intro hb
    subst hb
    rfl
/-- C15: for every script `s`, `IsPayToScriptHash` returns (no `at` is out of
bounds) true exactly when `s` has 23 bytes, `s[0]` is `OP_HASH160` (0xa9),
`s[1]` is 0x14 and `s[22]` is `OP_EQUAL` (0x87); it is false for every script
of another length and for every 23-byte script in which one of those three
bytes differs. -/
theorem IsPayToScriptHash_iff (s : Script) :
    IsPayToScriptHash s =
      some (decide (s.length = 23 ∧ s[0]? = some 0xa9 ∧ s[1]? = some 0x14 ∧
        s[22]? = some 0x87)) := by
  have hb : ∀ (b : UInt8) (n : Nat), n < 256 → (b.toNat = n ↔ b = UInt8.ofNat n) := by
    intro b n hn
    constructor
    · intro h
      cases b with
      | mk v =>
        apply congrArg UInt8.mk
        apply BitVec.eq_of_toNat_eq
        rw [BitVec.toNat_ofNat]
        show v.toNat = n % 256
        rw [Nat.mod_eq_of_lt hn]
        exact h
    · intro h
      rw [h]
      exact toNat_ofNat_of_lt n hn
  unfold IsPayToScriptHash at_
  by_cases hlen : s.length = 23
  · rw [if_neg (by simpa using hlen)]
    obtain ⟨b0, h0⟩ : ∃ b, s[0]? = some b := ⟨s[0], by simp [List.getElem?_eq_getElem]⟩
    obtain ⟨b1, h1⟩ : ∃ b, s[1]? = some b :=
      ⟨s.get ⟨1, by omega⟩, by simp [List.getElem?_eq_getElem, hlen]⟩
    obtain ⟨b22, h22⟩ : ∃ b, s[22]? = some b :=
      ⟨s.get ⟨22, by omega⟩, by simp [List.getElem?_eq_getElem, hlen]⟩
    simp only [List.get?_eq_getElem?, h0, h1, h22, hlen, true_and, Option.some.injEq]
    have e0 := hb b0 0xa9 (by decide)
    have e1 := hb b1 0x14 (by decide)
    have e22 := hb b22 0x87 (by decide)
    by_cases c0 : b0.toNat = 0xa9
    · by_cases c1 : b1.toNat = 0x14
      · by_cases c22 : b22.toNat = 0x87
        · simp [OP_HASH160, OP_EQUAL, c0, c1, c22, e0.1 c0, e1.1 c1, e22.1 c22]
        · have : ¬b22 = UInt8.ofNat 0x87 := fun h => c22 (e22.2 h)
          simp [OP_HASH160, OP_EQUAL, c0, c1, c22, e0.1 c0, e1.1 c1]
          exact this
      · have : ¬b1 = UInt8.ofNat 0x14 := fun h => c1 (e1.2 h)
        simp [OP_HASH160, c0, c1, e0.1 c0]
        intro h
        exact absurd h this
    · have : ¬b0 = UInt8.ofNat 0xa9 := fun h => c0 (e0.2 h)
      simp [OP_HASH160, c0]
      intro h
      exact absurd h this
  · rw [if_pos (by simpa using hlen)]
    simp [hlen]
/-- C16: for every script `s`, `IsPushOnly` is true exactly when decoding `s`
opcode by opcode reaches the end of the buffer without a failure and every
decoded opcode is at most `OP_16`; it is false when decoding fails partway;
`OP_RESERVED` counts as push-only. -/
theorem IsPushOnly_iff (s : Script) :
    (IsPushOnly s = true ↔ ∃ ops, decodeAll s = some ops ∧ ∀ e ∈ ops, e.1 ≤ OP_16) ∧
    (decodeAll s = none → IsPushOnly s = false) ∧
    IsPushOnly [UInt8.ofNat OP_RESERVED] = true := by
  have h : IsPushOnly s = true ↔ ∃ ops, decodeAll s = some ops ∧ ∀ e ∈ ops, e.1 ≤ OP_16 := by
    unfold IsPushOnly decodeAll
    exact IsPushOnlyLoop_iff _ _ (le_refl _)
  refine ⟨h, ?_, by decide⟩
  intro hnone
  cases hp : IsPushOnly s with
  | false => rfl
  | true =>
    obtain ⟨ops, hops, -⟩ := h.1 hp
    rw [hnone] at hops
    cases hops
/-- On a fully decodable script `GetSigOpCount` is the count over its decoded
elements. -/
theorem GetSigOpCountLoop_eq (fa : Bool) (fuel : Nat) (pc : Script) (n last : Nat)
    (ops : List (Nat × List UInt8)) (hf : pc.length ≤ fuel) (hd : decodeAll pc = some ops) :
    GetSigOpCountLoop fa fuel pc n last = countSigOps fa ops n last := by
  induction fuel generalizing pc n last ops with
  | zero =>
    have : pc = [] := List.eq_nil_of_length_eq_zero (by omega)
    subst this
    rw [decodeAll_nil] at hd
    cases hd
    simp [GetSigOpCountLoop, countSigOps]
  | succ fuel ih =>
    unfold GetSigOpCountLoop
    by_cases hp : pc.length = 0
    · have : pc = [] := List.eq_nil_of_length_eq_zero hp
      subst this
      rw [decodeAll_nil] at hd
      cases hd
      simp [countSigOps]
    · simp only [hp, if_false]
      cases hg : GetOp pc with
      | none =>
        exfalso
        obtain ⟨k, hk⟩ : ∃ k, pc.length = k + 1 := ⟨pc.length - 1, by omega⟩
        unfold decodeAll at hd
        rw [hk] at hd
        unfold decodeAllLoop at hd
        simp [hp, hg] at hd
      | some r =>
        obtain ⟨o, d, pc'⟩ := r
        have hl := GetOp_length hg
        simp only at hl ⊢
        rw [decodeAll_of_GetOp hg] at hd
        cases hd' : decodeAll pc' with
        | none => rw [hd'] at hd; cases hd
        | some l =>
          rw [hd'] at hd
          cases hd
          rw [ih pc' _ _ l (by omega) hd']
          rfl

theorem countSigOps_cons (fa : Bool) (e : Nat × List UInt8) (ops : List (Nat × List UInt8))
    (n last : Nat) :
    countSigOps fa (e :: ops) n last =
      countSigOps fa ops
        (if e.1 = OP_CHECKSIG ∨ e.1 = OP_CHECKSIGVERIFY then (n + 1) % 2 ^ 32
         else if e.1 = OP_CHECKMULTISIG ∨ e.1 = OP_CHECKMULTISIGVERIFY then
           if fa = true ∧ last ≥ OP_1 ∧ last ≤ OP_16 then (n + DecodeOP_N last) % 2 ^ 32
           else (n + 20) % 2 ^ 32
         else n)
        e.1 := rfl

theorem countSigOps_no_sigop (fa : Bool) (ops : List (Nat × List UInt8)) (n last : Nat)
    (h : ∀ e ∈ ops, ¬isSigOp e.1) : countSigOps fa ops n last = n := by
  induction ops generalizing n last with
  | nil => rfl
  | cons e ops ih =>
    have he := h e (List.mem_cons_self _ _)
    unfold isSigOp at he
    rw [countSigOps_cons, if_neg (by tauto), if_neg (by tauto)]
    exact ih _ _ (fun x hx => h x (List.mem_cons_of_mem _ hx))

theorem countSigOps_skip (fa : Bool) (pre rest : List (Nat × List UInt8)) (n last : Nat)
    (h : ∀ e ∈ pre, ¬isSigOp e.1) :
    ∃ last', countSigOps fa (pre ++ rest) n last = countSigOps fa rest n last' := by
  induction pre generalizing n last with
  | nil => exact ⟨last, rfl⟩
  | cons e pre ih =>
    have he := h e (List.mem_cons_self _ _)
    unfold isSigOp at he
    rw [List.cons_append, countSigOps_cons, if_neg (by tauto), if_neg (by tauto)]
    exact ih _ _ (fun x hx => h x (List.mem_cons_of_mem _ hx))

/-- C17: for every `n` in 1..16 and every fully decodable script whose decoded
opcodes contain one `OP_CHECKMULTISIG` or `OP_CHECKMULTISIGVERIFY`,
immediately preceded by `OP_n`, and no other counted opcode,
`GetSigOpCount(true)` is `n` and `GetSigOpCount(false)` is 20. -/
theorem GetSigOpCount_multisig (s : Script) (n : Nat) (multisig : Nat) (d1 d2 : List UInt8)
    (pre post : List (Nat × List UInt8)) (hn1 : 1 ≤ n) (hn16 : n ≤ 16)
    (hm : multisig = OP_CHECKMULTISIG ∨ multisig = OP_CHECKMULTISIGVERIFY)
    (hd : decodeAll s = some (pre ++ (OP_1 - 1 + n, d1) :: (multisig, d2) :: post))
    (hpre : ∀ e ∈ pre, ¬isSigOp e.1) (hpost : ∀ e ∈ post, ¬isSigOp e.1) :
    GetSigOpCount true s = n ∧ GetSigOpCount false s = 20 := by
  have key : ∀ fa : Bool, GetSigOpCount fa s = if fa = true then n else 20 := by
    intro fa
    unfold GetSigOpCount
    rw [GetSigOpCountLoop_eq fa _ _ _ _ _ (le_refl _) hd]
    obtain ⟨last', hl⟩ := countSigOps_skip fa pre
      ((OP_1 - 1 + n, d1) :: (multisig, d2) :: post) 0 OP_INVALIDOPCODE hpre
    rw [hl, countSigOps_cons, countSigOps_cons, countSigOps_no_sigop fa post _ _ hpost]
    simp only [OP_1, OP_CHECKSIG, OP_CHECKSIGVERIFY, OP_CHECKMULTISIG, OP_CHECKMULTISIGVERIFY,
      OP_16] at hm ⊢
    have c1 : ¬(81 - 1 + n = 172 ∨ 81 - 1 + n = 173) := by omega
    have c2 : ¬(81 - 1 + n = 174 ∨ 81 - 1 + n = 175) := by omega
    have c3 : ¬(multisig = 172 ∨ multisig = 173) := by omega
    have hdec : DecodeOP_N (81 - 1 + n) = n := by
      unfold DecodeOP_N
      simp only [OP_0, OP_1]
      rw [if_neg (by omega)]
      omega
    simp only [c1, c2, c3, hm, if_false, if_true, hdec]
    cases fa
    · simp
    · have c4 : 81 - 1 + n ≥ 81 ∧ 81 - 1 + n ≤ 96 := by omega
      simp [c4]
      omega
  exact ⟨by simpa using key true, by simpa using key false⟩

theorem GetSigOpCount_multisig_witness :
    GetSigOpCount true [0x53, 0xae] = 3 ∧ GetSigOpCount false [0x53, 0xae] = 20 :=
  GetSigOpCount_multisig [0x53, 0xae] 3 OP_CHECKMULTISIG [] [] [] [] (by decide) (by decide)
    (Or.inl rfl) (by decide) (by simp) (by simp)
theorem decodeAll_none_of_GetOp {pc : Script} (hp : pc.length ≠ 0) (hg : GetOp pc = none) :
    decodeAll pc = none := by
  obtain ⟨k, hk⟩ : ∃ k, pc.length = k + 1 := ⟨pc.length - 1, by omega⟩
  unfold decodeAll
  rw [hk]
  unfold decodeAllLoop
  simp [hp, hg]

/-- The loop of the second `GetSigOpCount`: it fails when the script is not
push-only, otherwise it leaves the operand of the last decoded element. -/
theorem lastPushLoop_eq (fuel : Nat) (pc : Script) (data : List UInt8) (hf : pc.length ≤ fuel) :
    lastPushLoop fuel pc data =
      match decodeAll pc with
      | none => none
      | some ops =>
        if ∀ e ∈ ops, e.1 ≤ OP_16 then
          some (match ops.getLast? with
                | none => data
                | some e => e.2)
        else none := by
  induction fuel generalizing pc data with
  | zero =>
    have : pc = [] := List.eq_nil_of_length_eq_zero (by omega)
    subst this
    simp [lastPushLoop, decodeAll_nil]
  | succ fuel ih =>
    unfold lastPushLoop
    by_cases hp : pc.length = 0
    · have : pc = [] := List.eq_nil_of_length_eq_zero hp
      subst this
      simp [decodeAll_nil]
    · simp only [hp, if_false]
      cases hg : GetOp pc with
      | none => rw [decodeAll_none_of_GetOp hp hg]
      | some r =>
        obtain ⟨o, d, pc'⟩ := r
        have hl := GetOp_length hg
        simp only at hl ⊢
        rw [decodeAll_of_GetOp hg]
        by_cases ho : o > OP_16
        · rw [if_pos ho]
          cases decodeAll pc' with
          | none => rfl
          | some l =>
            simp only [Option.map_some']
            rw [if_neg]
            intro h
            have := h (o, d) (List.mem_cons_self _ _)
            simp only at this
            omega
        · rw [if_neg ho, ih pc' d (by omega)]
          cases decodeAll pc' with
          | none => rfl
          | some l =>
            simp only [Option.map_some', List.mem_cons, forall_eq_or_imp]
            have ho' : o ≤ OP_16 := by omega
            simp only [ho', true_and]
            cases l with
            | nil => simp
            | cons a l' =>
              obtain ⟨e, he⟩ : ∃ e, (a :: l').getLast? = some e :=
                ⟨_, List.getLast?_eq_getLast _ (List.cons_ne_nil _ _)⟩
              simp only [List.getLast?_cons_cons, he]

/-- C18: on a pay-to-script-hash script `p`, the second `GetSigOpCount`
returns 0 when the unlocking script `u` is not push-only, and otherwise
`GetSigOpCount(true)` of the sub-script made of the operand of the last
opcode decoded in `u` (the empty script, hence 0, when `u` is empty or its last
opcode carries no operand); when `p` is not pay-to-script-hash it returns
`GetSigOpCount(true)` of `p`, whatever `u` is. -/
theorem GetSigOpCount_scriptSig_eq (p u : Script) :
    (IsPayToScriptHash p = some true →
      (IsPushOnly u = false → GetSigOpCount_scriptSig p u = some 0) ∧
      (IsPushOnly u = true →
        GetSigOpCount_scriptSig p u = some (GetSigOpCount true (lastOperand u))) ∧
      (lastOperand u = [] → GetSigOpCount_scriptSig p u = some 0)) ∧
    (IsPayToScriptHash p = some false →
      GetSigOpCount_scriptSig p u = some (GetSigOpCount true p)) ∧
    lastOperand [] = [] := by
  have hpo : IsPushOnly u = true ↔ ∃ ops, decodeAll u = some ops ∧ ∀ e ∈ ops, e.1 ≤ OP_16 := by
    unfold IsPushOnly decodeAll
    exact IsPushOnlyLoop_iff _ _ (le_refl _)
  have hloop := lastPushLoop_eq u.length u [] (le_refl _)
  have hno : IsPushOnly u = false → lastPushLoop u.length u [] = none := by
    intro h
    rw [hloop]
    cases hd : decodeAll u with
    | none => rfl
    | some ops =>
      simp only
      rw [if_neg]
      intro hall
      have := hpo.2 ⟨ops, hd, hall⟩
      rw [h] at this
      cases this
  have hyes : IsPushOnly u = true → lastPushLoop u.length u [] = some (lastOperand u) := by
    intro h
    obtain ⟨ops, hd, hall⟩ := hpo.1 h
    rw [hloop]
    unfold lastOperand
    simp only [hd]
    rw [if_pos hall]
  refine ⟨?_, ?_, rfl⟩
  · intro hp
    have h1 : IsPushOnly u = false → GetSigOpCount_scriptSig p u = some 0 := by
      intro h
      unfold GetSigOpCount_scriptSig
      simp only [hp, hno h]
    have h2 : IsPushOnly u = true →
        GetSigOpCount_scriptSig p u = some (GetSigOpCount true (lastOperand u)) := by
      intro h
      unfold GetSigOpCount_scriptSig
      simp only [hp, hyes h]
    refine ⟨h1, h2, ?_⟩
    intro hl
    cases hpu : IsPushOnly u with
    | false => exact h1 hpu
    | true =>
      rw [h2 hpu, hl]
      rfl
  · intro hp
    unfold GetSigOpCount_scriptSig
    simp only [hp]

theorem GetSigOpCount_scriptSig_eq_witness :
    GetSigOpCount_scriptSig ([0xa9, 0x14] ++ List.replicate 20 0 ++ [0x87]) [0x02, 0xac, 0xac] =
      some (GetSigOpCount true (lastOperand [0x02, 0xac, 0xac])) :=
  ((GetSigOpCount_scriptSig_eq ([0xa9, 0x14] ++ List.replicate 20 0 ++ [0x87])
    [0x02, 0xac, 0xac]).1 (by decide)).2.1 (by decide)
/-- What `IsWithdrawLock` accepts, whatever the flags: either the first push
is the 32-byte genesis push with opcode 32, or it is a 24-byte tag with opcode
24, followed by `OP_DROP` and the 32-byte genesis push with opcode 32; then a
20-byte operand and `OP_WITHDRAWPROOFVERIFY`.  With `fRequireToUs` the genesis
push equals the genesis argument. -/
theorem IsWithdrawLock_inv (H : List UInt8 → { v : List UInt8 // v.length = 20 })
    (g : uint256) (rd toUs : Bool) (s : Script) (h : IsWithdrawLock H g rd toUs s = true) :
    ∃ o1 d1 pc1, GetOp s = some (o1, d1, pc1) ∧
      ∃ gen pcg, gen.length = 32 ∧ (toUs = true → uint256.ofVector gen = g) ∧
        ((o1 = 32 ∧ d1 = gen ∧ pc1 = pcg) ∨
         (o1 = 24 ∧ d1.length = 24 ∧
           ∃ pc2, GetOp pc1 = some (OP_DROP, [], pc2) ∧ GetOp pc2 = some (32, gen, pcg))) ∧
        ∃ o4 d4 pc4 pc5, GetOp pcg = some (o4, d4, pc4) ∧ d4.length = 20 ∧
          GetOp pc4 = some (OP_WITHDRAWPROOFVERIFY, [], pc5) := by
  unfold IsWithdrawLock at h
  cases h1 : GetOp s with
  | none => rw [h1] at h; cases h
  | some r1 =>
    obtain ⟨o1, d1, pc1⟩ := r1
    rw [h1] at h
    simp only at h
    refine ⟨o1, d1, pc1, rfl, ?_⟩
    have tail : ∀ (o : Nat) (d pc : Script),
        (if (o != 32 || d.length != 32) = true then false
          else if (toUs && decide (uint256.ofVector d ≠ g)) = true then false
          else
            match GetOp pc with
            | none => false
            | some (_, data, pc) =>
              if (data.length != 20) = true then false
              else if (toUs && decide (data ≠ (H expectedScript).val)) = true then false
              else
                match GetOp pc with
                | none => false
                | some (opcode, data, pc) =>
                  if (opcode != OP_WITHDRAWPROOFVERIFY || data.length != 0) = true then false
                  else if (toUs && (GetOp pc).isSome) = true then false
                  else true) = true →
        o = 32 ∧ d.length = 32 ∧ (toUs = true → uint256.ofVector d = g) ∧
        ∃ o4 d4 pc4 pc5, GetOp pc = some (o4, d4, pc4) ∧ d4.length = 20 ∧
          GetOp pc4 = some (OP_WITHDRAWPROOFVERIFY, [], pc5) := by
      intro o d pc ht
      split_ifs at ht with c1 c2
      simp only [Bool.or_eq_true, bne_iff_ne, ne_eq, not_or, not_not] at c1
      have c2' : toUs = true → uint256.ofVector d = g := by
        intro htu
        by_contra hne
        exact c2 (by simp [htu, hne])
      refine ⟨c1.1, c1.2, c2', ?_⟩
      cases h4 : GetOp pc with
      | none => rw [h4] at ht; cases ht
      | some r4 =>
        obtain ⟨o4, d4, pc4⟩ := r4
        rw [h4] at ht
        simp only at ht
        split_ifs at ht with c3 c4
        simp only [bne_iff_ne, ne_eq, not_not] at c3
        cases h5 : GetOp pc4 with
        | none => rw [h5] at ht; cases ht
        | some r5 =>
          obtain ⟨o5, d5, pc5⟩ := r5
          rw [h5] at ht
          simp only at ht
          split_ifs at ht with c5 c6
          simp only [Bool.or_eq_true, bne_iff_ne, ne_eq, not_or, not_not,
            List.length_eq_zero] at c5
          exact ⟨o4, d4, pc4, pc5, rfl, c3, by rw [h5, c5.1, c5.2]⟩
    by_cases ht : o1 = 24 ∧ d1.length = 24
    · rw [if_pos ht] at h
      by_cases ctag : (toUs && (d1.getD 0 0 != 80 || d1.getD 1 0 != 50 || d1.getD 2 0 != 83 ||
          d1.getD 3 0 != 72)) = true
      · rw [if_pos ctag] at h
        cases h
      · rw [if_neg ctag] at h
        cases h2 : GetOp pc1 with
        | none => rw [h2] at h; cases h
        | some r2 =>
          obtain ⟨o2, d2, pc2⟩ := r2
          rw [h2] at h
          simp only at h
          by_cases cdrop : (o2 != OP_DROP || d2.length != 0) = true
          · rw [if_pos cdrop] at h
            cases h
          · rw [if_neg cdrop] at h
            simp only [Bool.or_eq_true, bne_iff_ne, ne_eq, not_or, not_not,
              List.length_eq_zero] at cdrop
            cases h3 : GetOp pc2 with
            | none => rw [h3] at h; cases h
            | some r3 =>
              obtain ⟨o3, d3, pc3⟩ := r3
              rw [h3] at h
              obtain ⟨e1, e2, e3, e4⟩ := tail o3 d3 pc3 h
              refine ⟨d3, pc3, e2, e3, Or.inr ⟨ht.1, ht.2, pc2, ?_, ?_⟩, e4⟩
              · rw [cdrop.1, cdrop.2]
              · rw [← e1]
                exact h3
    · rw [if_neg ht] at h
      by_cases crd : rd = true
      · rw [if_pos crd] at h
        cases h
      · rw [if_neg crd] at h
        obtain ⟨e1, e2, e3, e4⟩ := tail o1 d1 pc1 h
        exact ⟨d1, pc1, e2, e3, Or.inl ⟨e1, rfl, rfl⟩, e4⟩
/-- A script of the shape that `IsWithdrawLock` accepts is accepted without
the two requirements, for every genesis argument. -/
theorem IsWithdrawLock_of_shape (H : List UInt8 → { v : List UInt8 // v.length = 20 })
    (g' : uint256) (s : Script) (o1 : Nat) (d1 pc1 gen pcg : Script)
    (h1 : GetOp s = some (o1, d1, pc1)) (hgen : gen.length = 32)
    (hshape : (o1 = 32 ∧ d1 = gen ∧ pc1 = pcg) ∨
      (o1 = 24 ∧ d1.length = 24 ∧
        ∃ pc2, GetOp pc1 = some (OP_DROP, [], pc2) ∧ GetOp pc2 = some (32, gen, pcg)))
    (htail : ∃ o4 d4 pc4 pc5, GetOp pcg = some (o4, d4, pc4) ∧ d4.length = 20 ∧
      GetOp pc4 = some (OP_WITHDRAWPROOFVERIFY, [], pc5)) :
    IsWithdrawLock H g' false false s = true := by
  obtain ⟨o4, d4, pc4, pc5, h4, hd4, h5⟩ := htail
  unfold IsWithdrawLock
  rw [h1]
  simp only
  rcases hshape with ⟨e1, e2, e3⟩ | ⟨e1, e2, pc2, h2, h3⟩
  · subst e1 e2 e3
    rw [if_neg (by omega)]
    simp [hgen, h4, hd4, h5]
  · rw [if_pos ⟨e1, e2⟩]
    simp [h2, h3, hgen, h4, hd4, h5]

/-- On a script of the shape that `IsWithdrawLock` accepts, the extractor
returns the genesis push. -/
theorem GetWithdrawLockGenesisHash_of_shape
    (H : List UInt8 → { v : List UInt8 // v.length = 20 })
    (s : Script) (o1 : Nat) (d1 pc1 gen pcg : Script)
    (h1 : GetOp s = some (o1, d1, pc1)) (hgen : gen.length = 32)
    (hshape : (o1 = 32 ∧ d1 = gen ∧ pc1 = pcg) ∨
      (o1 = 24 ∧ d1.length = 24 ∧
        ∃ pc2, GetOp pc1 = some (OP_DROP, [], pc2) ∧ GetOp pc2 = some (32, gen, pcg)))
    (htail : ∃ o4 d4 pc4 pc5, GetOp pcg = some (o4, d4, pc4) ∧ d4.length = 20 ∧
      GetOp pc4 = some (OP_WITHDRAWPROOFVERIFY, [], pc5)) :
    GetWithdrawLockGenesisHash H s = some (uint256.ofVector gen) := by
  have hl := IsWithdrawLock_of_shape H uint256.zero s o1 d1 pc1 gen pcg h1 hgen hshape htail
  unfold GetWithdrawLockGenesisHash
  rw [hl, h1]
  simp only [Bool.not_true, Bool.false_eq_true, if_false]
  rcases hshape with ⟨e1, e2, e3⟩ | ⟨e1, e2, pc2, h2, h3⟩
  · subst e2
    simp [hgen]
  · simp [e2, h2, h3, hgen]

/-- C19: on every script accepted by `IsWithdrawLock` with both flags false
(whatever the genesis argument), `GetWithdrawLockGenesisHash` returns (no
assertion fails) the 32-byte push that `IsWithdrawLock` matched as the genesis
hash: the first push when that push has 32 bytes, otherwise the push that
follows the leading 24-byte tag and `OP_DROP`. -/
theorem GetWithdrawLockGenesisHash_value
    (H : List UInt8 → { v : List UInt8 // v.length = 20 }) (g : uint256) (s : Script)
    (h : IsWithdrawLock H g false false s = true) :
    ∃ o1 d1 pc1 gen, GetOp s = some (o1, d1, pc1) ∧ gen.length = 32 ∧
      GetWithdrawLockGenesisHash H s = some (uint256.ofVector gen) ∧
      (uint256.ofVector gen).val = gen ∧
      ((d1.length = 32 ∧ o1 = 32 ∧ gen = d1) ∨
       (d1.length ≠ 32 ∧ o1 = 24 ∧ d1.length = 24 ∧ nthOp 1 s = some (OP_DROP, []) ∧
         nthOp 2 s = some (32, gen))) := by
  obtain ⟨o1, d1, pc1, h1, gen, pcg, hgen, -, hshape, htail⟩ := IsWithdrawLock_inv H g _ _ s h
  refine ⟨o1, d1, pc1, gen, h1, hgen,
    GetWithdrawLockGenesisHash_of_shape H s o1 d1 pc1 gen pcg h1 hgen hshape htail, ?_, ?_⟩
  · unfold uint256.ofVector
    rw [dif_pos hgen]
  · rcases hshape with ⟨e1, e2, e3⟩ | ⟨e1, e2, pc2, h2, h3⟩
    · exact Or.inl ⟨by rw [e2]; exact hgen, e1, e2.symm⟩
    · refine Or.inr ⟨by omega, e1, e2, ?_, ?_⟩
      · simp [nthOp, h1, h2]
      · simp [nthOp, h1, h2, h3]

theorem GetWithdrawLockGenesisHash_value_witness :
    ∃ o1 d1 pc1 gen,
      GetOp (withdrawLock none (List.replicate 32 7) (List.replicate 20 9)) =
        some (o1, d1, pc1) ∧ gen.length = 32 ∧
      GetWithdrawLockGenesisHash (fun _ => ⟨List.replicate 20 9, by decide⟩)
        (withdrawLock none (List.replicate 32 7) (List.replicate 20 9)) =
          some (uint256.ofVector gen) ∧
      (uint256.ofVector gen).val = gen ∧
      ((d1.length = 32 ∧ o1 = 32 ∧ gen = d1) ∨
       (d1.length ≠ 32 ∧ o1 = 24 ∧ d1.length = 24 ∧
         nthOp 1 (withdrawLock none (List.replicate 32 7) (List.replicate 20 9)) =
           some (OP_DROP, []) ∧
         nthOp 2 (withdrawLock none (List.replicate 32 7) (List.replicate 20 9)) =
           some (32, gen))) :=
  GetWithdrawLockGenesisHash_value (fun _ => ⟨List.replicate 20 9, by decide⟩)
    ⟨List.replicate 32 7, by decide⟩
    (withdrawLock none (List.replicate 32 7) (List.replicate 20 9)) (by decide)

/-- C20: if `IsWithdrawLock(g, fRequireDestination, true)` accepts a script,
then `IsWithdrawLock(g', false, false)` accepts it for every `g'`, and
`GetWithdrawLockGenesisHash` returns `g`. -/
theorem IsWithdrawLock_genesis_agree
    (H : List UInt8 → { v : List UInt8 // v.length = 20 }) (g : uint256) (rd : Bool)
    (s : Script) (h : IsWithdrawLock H g rd true s = true) :
    (∀ g' : uint256, IsWithdrawLock H g' false false s = true) ∧
    GetWithdrawLockGenesisHash H s = some g := by
  obtain ⟨o1, d1, pc1, h1, gen, pcg, hgen, hg, hshape, htail⟩ :=
    IsWithdrawLock_inv H g _ _ s h
  refine ⟨fun g' => IsWithdrawLock_of_shape H g' s o1 d1 pc1 gen pcg h1 hgen hshape htail, ?_⟩
  rw [GetWithdrawLockGenesisHash_of_shape H s o1 d1 pc1 gen pcg h1 hgen hshape htail, hg rfl]

theorem IsWithdrawLock_genesis_agree_witness :
    (∀ g' : uint256, IsWithdrawLock (fun _ => ⟨List.replicate 20 9, by decide⟩) g' false false
      (withdrawLock none (List.replicate 32 7) (List.replicate 20 9)) = true) ∧
    GetWithdrawLockGenesisHash (fun _ => ⟨List.replicate 20 9, by decide⟩)
      (withdrawLock none (List.replicate 32 7) (List.replicate 20 9)) =
        some ⟨List.replicate 32 7, by decide⟩ :=
  IsWithdrawLock_genesis_agree (fun _ => ⟨List.replicate 20 9, by decide⟩)
    ⟨List.replicate 32 7, by decide⟩ false
    (withdrawLock none (List.replicate 32 7) (List.replicate 20 9)) (by decide)
theorem DecodeOP_N_le (last : Nat) (h1 : last ≥ OP_1) (h16 : last ≤ OP_16) :
    DecodeOP_N last ≤ 16 := by
  unfold DecodeOP_N
  simp only [OP_0, OP_1, OP_16] at *
  rw [if_neg (by omega)]
  omega

/-- While the inaccurate counter cannot wrap, the accurate count stays below
the inaccurate one through the loop. -/
theorem GetSigOpCountLoop_le (fuel : Nat) (pc : Script) (nT nF last : Nat) (hle : nT ≤ nF)
    (hb : nF + 20 * pc.length < 2 ^ 32) :
    GetSigOpCountLoop true fuel pc nT last ≤ GetSigOpCountLoop false fuel pc nF last := by
  induction fuel generalizing pc nT nF last with
  | zero =>
    unfold GetSigOpCountLoop
    by_cases hp : pc.length = 0 <;> simp [hp, hle]
  | succ fuel ih =>
    unfold GetSigOpCountLoop
    by_cases hp : pc.length = 0
    · simp [hp, hle]
    · simp only [hp, if_false]
      cases hg : GetOp pc with
      | none => exact hle
      | some r =>
        obtain ⟨o, d, pc'⟩ := r
        have hl := GetOp_length hg
        simp only at hl ⊢
        have h32 : (2 : Nat) ^ 32 = 4294967296 := by norm_num
        rw [h32] at hb ⊢
        apply ih
        · by_cases c1 : o = OP_CHECKSIG ∨ o = OP_CHECKSIGVERIFY
          · simp only [c1, if_true]
            omega
          · simp only [c1, if_false]
            by_cases c2 : o = OP_CHECKMULTISIG ∨ o = OP_CHECKMULTISIGVERIFY
            · simp only [c2, if_true, Bool.false_eq_true, false_and, if_false, true_and]
              by_cases c3 : last ≥ OP_1 ∧ last ≤ OP_16
              · have := DecodeOP_N_le last c3.1 c3.2
                rw [if_pos c3]
                omega
              · rw [if_neg c3]
                omega
            · simp only [c2, if_false]
              exact hle
        · rw [h32]
          by_cases c1 : o = OP_CHECKSIG ∨ o = OP_CHECKSIGVERIFY
          · simp only [c1, if_true]
            omega
          · simp only [c1, if_false]
            by_cases c2 : o = OP_CHECKMULTISIG ∨ o = OP_CHECKMULTISIGVERIFY
            · simp only [c2, if_true, Bool.false_eq_true, false_and, if_false]
              omega
            · simp only [c2, if_false]
              omega

/-- C21 (as amended): for every script `s` with `20 * s.length < 2^32` (at
most 214748364 bytes), scripts on which decoding fails partway included,
`GetSigOpCount(true)` is at most `GetSigOpCount(false)`. -/
theorem GetSigOpCount_accurate_le (s : Script) (h : 20 * s.length < 2 ^ 32) :
    GetSigOpCount true s ≤ GetSigOpCount false s := by
  unfold GetSigOpCount
  exact GetSigOpCountLoop_le _ _ _ _ _ (le_refl _) (by omega)

theorem GetSigOpCount_accurate_le_witness :
    20 * ([0x53, 0xae, 0x02] : Script).length < 2 ^ 32 ∧
    GetSigOpCount true [0x53, 0xae, 0x02] ≤ GetSigOpCount false [0x53, 0xae, 0x02] :=
  ⟨by decide, GetSigOpCount_accurate_le [0x53, 0xae, 0x02] (by decide)⟩
theorem decodeAll_replicate_multisig (m : Nat) :
    decodeAll (List.replicate m (0xae : UInt8)) = some (List.replicate m (0xae, [])) := by
  induction m with
  | zero => rfl
  | succ m ih =>
    rw [List.replicate_succ, List.replicate_succ,
      decodeAll_of_GetOp (GetOp_opcode 0xae (List.replicate m 0xae) (by decide)), ih]
    rfl

theorem countSigOps_replicate_multisig (fa : Bool) (m n : Nat) (hn : n < 2 ^ 32) :
    countSigOps fa (List.replicate m (0xae, [])) n 0xae = (n + 20 * m) % 2 ^ 32 := by
  have h32 : (2 : Nat) ^ 32 = 4294967296 := by norm_num
  rw [h32] at hn ⊢
  induction m generalizing n with
  | zero =>
    show n = (n + 20 * 0) % 4294967296
    omega
  | succ m ih =>
    rw [List.replicate_succ, countSigOps_cons]
    have c1 : ¬((0xae : Nat) = OP_CHECKSIG ∨ (0xae : Nat) = OP_CHECKSIGVERIFY) := by decide
    have c2 : (0xae : Nat) = OP_CHECKMULTISIG ∨ (0xae : Nat) = OP_CHECKMULTISIGVERIFY :=
      Or.inl rfl
    have c3 : ¬(fa = true ∧ (0xae : Nat) ≥ OP_1 ∧ (0xae : Nat) ≤ OP_16) := by
      rintro ⟨-, -, h⟩
      exact absurd h (by decide)
    simp only [c1, c2, c3, if_true, if_false, h32, true_or]
    rw [ih _ (by omega)]
    omega

/-- The counts of the script `OP_1` followed by `k` bytes `OP_CHECKMULTISIG`. -/
theorem GetSigOpCount_one_multisigs (fa : Bool) (k : Nat) (hk : 0 < k) :
    GetSigOpCount fa (0x51 :: List.replicate k 0xae) =
      ((if fa = true then 1 else 20) + 20 * (k - 1)) % 2 ^ 32 := by
  obtain ⟨m, rfl⟩ : ∃ m, k = m + 1 := ⟨k - 1, by omega⟩
  have hd : decodeAll (0x51 :: List.replicate (m + 1) (0xae : UInt8)) =
      some ((0x51, []) :: List.replicate (m + 1) (0xae, [])) := by
    rw [decodeAll_of_GetOp (GetOp_opcode 0x51 (List.replicate (m + 1) 0xae) (by decide)),
      decodeAll_replicate_multisig]
    rfl
  unfold GetSigOpCount
  rw [GetSigOpCountLoop_eq fa _ _ _ _ _ (le_refl _) hd, countSigOps_cons,
    List.replicate_succ, countSigOps_cons]
  have c0 : ¬((0x51 : Nat) = OP_CHECKSIG ∨ (0x51 : Nat) = OP_CHECKSIGVERIFY) := by decide
  have c0' : ¬((0x51 : Nat) = OP_CHECKMULTISIG ∨ (0x51 : Nat) = OP_CHECKMULTISIGVERIFY) := by
    decide
  have c1 : ¬((0xae : Nat) = OP_CHECKSIG ∨ (0xae : Nat) = OP_CHECKSIGVERIFY) := by decide
  have c2 : (0xae : Nat) = OP_CHECKMULTISIG ∨ (0xae : Nat) = OP_CHECKMULTISIGVERIFY :=
    Or.inl rfl
  have c3 : (0x51 : Nat) ≥ OP_1 ∧ (0x51 : Nat) ≤ OP_16 := by decide
  have hdec : DecodeOP_N 0x51 = 1 := by decide
  simp only [c0, c0', c1, c2, c3, and_true, if_true, if_false, hdec, Nat.add_sub_cancel,
    true_or]
  have h32 : (2 : Nat) ^ 32 = 4294967296 := by norm_num
  cases fa
  · simp only [Bool.false_eq_true, if_false]
    rw [countSigOps_replicate_multisig _ _ _ (Nat.mod_lt _ (by norm_num)), h32]
  · simp only [if_true]
    rw [countSigOps_replicate_multisig _ _ _ (Nat.mod_lt _ (by norm_num)), h32]

/-- C21 (counterexample): on the script `OP_1` followed by 214748365 bytes
`OP_CHECKMULTISIG` the 32-bit counter of the inaccurate count wraps around:
`GetSigOpCount(true)` is 4294967281 and `GetSigOpCount(false)` is 4. -/
theorem GetSigOpCount_accurate_gt :
    GetSigOpCount true (0x51 :: List.replicate 214748365 0xae) = 4294967281 ∧
    GetSigOpCount false (0x51 :: List.replicate 214748365 0xae) = 4 ∧
    ¬(GetSigOpCount true (0x51 :: List.replicate 214748365 0xae) ≤
      GetSigOpCount false (0x51 :: List.replicate 214748365 0xae)) := by
  have hT := GetSigOpCount_one_multisigs true 214748365 (by norm_num)
  have hF := GetSigOpCount_one_multisigs false 214748365 (by norm_num)
  have eT : ((if true = true then 1 else 20) + 20 * (214748365 - 1)) % 2 ^ 32 = 4294967281 := by
    norm_num
  have eF : ((if false = true then 1 else 20) + 20 * (214748365 - 1)) % 2 ^ 32 = 4 := by
    norm_num
  rw [eT] at hT
  rw [eF] at hF
  refine ⟨hT, hF, ?_⟩
  rw [hT, hF]
  norm_num

end CScript
